import Mathlib

/-!
Verification of the AVL-tree set container (`avlTree.cpp`) and the AVL-tree
map container (`avlMap.cpp`).

The C++ code stores nodes behind `avlNode*` pointers, where `nullptr` denotes
an absent subtree.  We embed an `avlNode*` as the inductive type `Avl.Tree`
(set variant: payload is the `copies` counter) and `Avl.MTree` (map variant:
payload is the stored value).  The recursive member functions communicate with
the enclosing container object through the boolean fields `h` (height
changed), `a` (node added / value updated) and `r` (node removed) of the
container; the embedding threads these booleans through return values
instead.  The map variant additionally increments eight rotation counters,
modelled by the `Avl.Counters` structure threaded through the map operations.
-/

namespace Avl

/-- An `avlNode*` of `avlTree.cpp`: either `nullptr` or a node carrying the
key, the `copies` counter (`size_t`), the balance factor `bal` (`int`) and
the two child pointers. -/
inductive Tree (α : Type) where
  | nil : Tree α
  | node : α → Nat → Int → Tree α → Tree α → Tree α
deriving DecidableEq

variable {α : Type} [LinearOrder α]

/-- Height of a subtree: 0 for `nullptr`, 1 + max of children otherwise.
The C++ code does not store heights; this is the mathematical height used to
state the AVL invariant. -/
def Tree.height : Tree α → Nat
  | .nil => 0
  | .node _ _ _ l r => 1 + max l.height r.height

/-- Balance factor stored at the root of a subtree (0 for `nullptr`). -/
def Tree.rootBal : Tree α → Int
  | .nil => 0
  | .node _ _ b _ _ => b

/-- `avlNode::getKeys` (`avlTree.cpp` lines 564-573): the in-order walk that
writes each key into the next slot of the output vector.  The embedding
returns the list of keys written, in the order they are written. -/
def Tree.getKeys : Tree α → List α
  | .nil => []
  | .node k _ _ l r => l.getKeys ++ k :: r.getKeys

/-- `avlNode::contains` (`avlTree.cpp` lines 100-114): iterative BST search,
embedded as structural recursion (each loop iteration moves `p` to a child). -/
def Tree.contains (x : α) : Tree α → Bool
  | .nil => false
  | .node k _ _ l r =>
    if x < k then l.contains x
    else if k < x then r.contains x
    else true

/-- Rebalancing step of `avlNode::insert` after the left branch has grown
higher and `p->bal` was `-1` (`avlTree.cpp` lines 154-181): a single LL
rotation when the left child's balance is `-1`, otherwise a double LR
rotation.  Arguments are the fields of the imbalanced node `p` (its left
child already replaced by the grown subtree).  The branches for a null
`p1`/`p2` are unreachable in the source (null dereference); the embedding
returns the node unrotated there. -/
def Tree.rebalanceInsL (k : α) (c : Nat) (l r : Tree α) : Tree α :=
  match l with
  | .nil => .node k c (-1) .nil r
  | .node k1 c1 b1 l1 r1 =>
    if b1 = -1 then
      .node k1 c1 0 l1 (.node k c 0 r1 r)
    else
      match r1 with
      | .nil => .node k c (-1) (.node k1 c1 b1 l1 .nil) r
      | .node k2 c2 b2 l2 r2 =>
        .node k2 c2 0 (.node k1 c1 (if b2 = 1 then -1 else 0) l1 l2)
          (.node k c (if b2 = -1 then 1 else 0) r2 r)

/-- Rebalancing step of `avlNode::insert` after the right branch has grown
higher and `p->bal` was `1` (`avlTree.cpp` lines 200-227): a single RR
rotation when the right child's balance is `1`, otherwise a double RL
rotation. -/
def Tree.rebalanceInsR (k : α) (c : Nat) (l r : Tree α) : Tree α :=
  match r with
  | .nil => .node k c 1 l .nil
  | .node k1 c1 b1 l1 r1 =>
    if b1 = 1 then
      .node k1 c1 0 (.node k c 0 l l1) r1
    else
      match l1 with
      | .nil => .node k c 1 l (.node k1 c1 b1 .nil r1)
      | .node k2 c2 b2 l2 r2 =>
        .node k2 c2 0 (.node k c (if b2 = 1 then -1 else 0) l l2)
          (.node k1 c1 (if b2 = -1 then 1 else 0) r2 r1)

/-- `avlNode::insert` (`avlTree.cpp` lines 134-236).  Returns the new subtree
root together with the container booleans `(h, a)`.  The `nil` case embeds
the parent's `new avlNode(x, t->h); t->a = true` branch (the constructor
sets `h = true`, `copies = 1`, `bal = 0`).  The equal-key branch increments
`copies` and sets `h = false, a = false`.  A balance factor outside
{-1, 0, +1} matches no `switch` case, so the node is returned with `h`
still set. -/
def Tree.insert (x : α) : Tree α → Tree α × Bool × Bool
  | .nil => (.node x 1 0 .nil .nil, true, true)
  | .node k c b l r =>
    if x < k then
      let res := (l.insert x : Tree α × Bool × Bool)
      if res.2.1 then
        if b = 1 then (.node k c 0 res.1 r, false, res.2.2)
        else if b = 0 then (.node k c (-1) res.1 r, true, res.2.2)
        else if b = -1 then (Tree.rebalanceInsL k c res.1 r, false, res.2.2)
        else (.node k c b res.1 r, true, res.2.2)
      else (.node k c b res.1 r, false, res.2.2)
    else if k < x then
      let res := (r.insert x : Tree α × Bool × Bool)
      if res.2.1 then
        if b = -1 then (.node k c 0 l res.1, false, res.2.2)
        else if b = 0 then (.node k c 1 l res.1, true, res.2.2)
        else if b = 1 then (Tree.rebalanceInsR k c l res.1, false, res.2.2)
        else (.node k c b l res.1, true, res.2.2)
      else (.node k c b l res.1, false, res.2.2)
    else (.node k (c + 1) b l r, false, false)

/-- `avlNode::balanceLeft` (`avlTree.cpp` lines 253-301): rebalance after the
left subtree has shrunk.  Returns the new subtree root and the value of the
container's `h` flag (the function is only invoked with `h = true`; the case
`bal = -1` leaves `h` set, `bal = 0` clears it, `bal = 1` rotates).  Branches
dereferencing a null child are unreachable in the source and return the node
unchanged here. -/
def Tree.balanceLeft : Tree α → Tree α × Bool
  | .nil => (.nil, true)
  | .node k c b l r =>
    if b = -1 then (.node k c 0 l r, true)
    else if b = 0 then (.node k c 1 l r, false)
    else if b = 1 then
      match r with
      | .nil => (.node k c b l .nil, true)
      | .node k1 c1 b1 l1 r1 =>
        if 0 ≤ b1 then
          if b1 = 0 then
            (.node k1 c1 (-1) (.node k c 1 l l1) r1, false)
          else
            (.node k1 c1 0 (.node k c 0 l l1) r1, true)
        else
          match l1 with
          | .nil => (.node k c b l (.node k1 c1 b1 .nil r1), true)
          | .node k2 c2 b2 l2 r2 =>
            (.node k2 c2 0 (.node k c (if b2 = 1 then -1 else 0) l l2)
              (.node k1 c1 (if b2 = -1 then 1 else 0) r2 r1), true)
    else (.node k c b l r, true)

/-- `avlNode::balanceRight` (`avlTree.cpp` lines 318-366): rebalance after
the right subtree has shrunk; mirror image of `balanceLeft`. -/
def Tree.balanceRight : Tree α → Tree α × Bool
  | .nil => (.nil, true)
  | .node k c b l r =>
    if b = 1 then (.node k c 0 l r, true)
    else if b = 0 then (.node k c (-1) l r, false)
    else if b = -1 then
      match l with
      | .nil => (.node k c b .nil r, true)
      | .node k1 c1 b1 l1 r1 =>
        if b1 ≤ 0 then
          if b1 = 0 then
            (.node k1 c1 1 l1 (.node k c (-1) r1 r), false)
          else
            (.node k1 c1 0 l1 (.node k c 0 r1 r), true)
        else
          match r1 with
          | .nil => (.node k c b (.node k1 c1 b1 l1 .nil) r, true)
          | .node k2 c2 b2 l2 r2 =>
            (.node k2 c2 0 (.node k1 c1 (if b2 = 1 then -1 else 0) l1 l2)
              (.node k c (if b2 = -1 then 1 else 0) r2 r), true)
    else (.node k c b l r, true)

/-- `avlNode::eraseRight` (`avlTree.cpp` lines 419-434): descend to the
rightmost node of the subtree `node k c b l r`, copy its key and `copies`
into the node to be deleted (returned here as the last two components),
splice in its left child, set `h = true`, and rebalance with `balanceRight`
on the way back.  Result: `(new subtree, h, extracted key, extracted copies)`. -/
def Tree.eraseRight (k : α) (c : Nat) (b : Int) (l : Tree α) :
    Tree α → Tree α × Bool × α × Nat
  | .nil => (l, true, k, c)
  | .node rk rc rb rl rr =>
    let res := Tree.eraseRight rk rc rb rl rr
    if res.2.1 then
      let res2 := Tree.balanceRight (.node k c b l res.1)
      (res2.1, res2.2, res.2.2.1, res.2.2.2)
    else (.node k c b l res.1, false, res.2.2.1, res.2.2.2)

/-- `avlNode::eraseLeft` (`avlTree.cpp` lines 385-400): mirror image of
`eraseRight`, extracting the leftmost node.  The recursion descends the left
child, which is passed last. -/
def Tree.eraseLeft (k : α) (c : Nat) (b : Int) (r : Tree α) :
    Tree α → Tree α × Bool × α × Nat
  | .nil => (r, true, k, c)
  | .node lk lc lb ll lr =>
    let res := Tree.eraseLeft lk lc lb lr ll
    if res.2.1 then
      let res2 := Tree.balanceLeft (.node k c b res.1 r)
      (res2.1, res2.2, res.2.2.1, res.2.2.2)
    else (.node k c b res.1 r, false, res.2.2.1, res.2.2.2)

/-- `avlNode::erase` (`avlTree.cpp` lines 452-510).  Returns
`some (new subtree, h, r)` on the normal paths, `none` for the `default:`
branch of the `switch`, which throws `std::runtime_error` when the balance
factor of a doubly-linked node is outside {-1, 0, +1}.  The equal-key branch
models `p->copies-- <= 1`: when `copies ≤ 1` the node is removed, otherwise
only `copies` is decremented. -/
def Tree.erase (x : α) : Tree α → Option (Tree α × Bool × Bool)
  | .nil => some (.nil, false, false)
  | .node k c b l r =>
    if x < k then
      match l.erase x with
      | none => none
      | some res =>
        if res.2.1 then
          let res2 := Tree.balanceLeft (.node k c b res.1 r)
          some (res2.1, res2.2, res.2.2)
        else some (.node k c b res.1 r, false, res.2.2)
    else if k < x then
      match r.erase x with
      | none => none
      | some res =>
        if res.2.1 then
          let res2 := Tree.balanceRight (.node k c b l res.1)
          some (res2.1, res2.2, res.2.2)
        else some (.node k c b l res.1, false, res.2.2)
    else if c ≤ 1 then
      match r with
      | .nil => some (l, true, true)
      | .node rk rc rb rl rr =>
        match l with
        | .nil => some (.node rk rc rb rl rr, true, true)
        | .node lk lc lb ll lr =>
          if b = 0 ∨ b = -1 then
            let res := Tree.eraseRight lk lc lb ll lr
            let p : Tree α := .node res.2.2.1 res.2.2.2 b res.1 (.node rk rc rb rl rr)
            if res.2.1 then
              let res2 := Tree.balanceLeft p
              some (res2.1, res2.2, true)
            else some (p, false, true)
          else if b = 1 then
            let res := Tree.eraseLeft rk rc rb rr rl
            let p : Tree α := .node res.2.2.1 res.2.2.2 b (.node lk lc lb ll lr) res.1
            if res.2.1 then
              let res2 := Tree.balanceRight p
              some (res2.1, res2.2, true)
            else some (p, false, true)
          else none
    else some (.node k (c - 1) b l r, false, false)

/-- BST order (spec section 3, invariant 1): at every node, every key of the
left subtree is less than the node's key, which is less than every key of
the right subtree. -/
def Tree.ordered : Tree α → Prop
  | .nil => True
  | .node k _ _ l r =>
    (∀ y ∈ l.getKeys, y < k) ∧ (∀ y ∈ r.getKeys, k < y) ∧ l.ordered ∧ r.ordered

/-- AVL balance (spec section 3, invariant 2): at every node the stored
balance factor equals height(right) − height(left) exactly, and the two
heights differ by at most one. -/
def Tree.balanced : Tree α → Prop
  | .nil => True
  | .node _ _ b l r =>
    b = (r.height : Int) - (l.height : Int) ∧
    r.height ≤ l.height + 1 ∧ l.height ≤ r.height + 1 ∧
    l.balanced ∧ r.balanced

/-- Every stored balance factor lies in {-1, 0, +1} (the precondition of
claim C9; implied by `balanced`). -/
def Tree.balsOk : Tree α → Prop
  | .nil => True
  | .node _ _ b l r => (b = -1 ∨ b = 0 ∨ b = 1) ∧ l.balsOk ∧ r.balsOk

/-- The `avlTree` container class (`avlTree.cpp` lines 57-710): the root
pointer, the node count and the `h`, `a`, `r` booleans. -/
structure avlTree (α : Type) where
  root : Tree α
  count : Nat
  h : Bool
  a : Bool
  r : Bool
deriving DecidableEq

/-- The `avlTree()` constructor: empty root, zero count, flags false. -/
def avlTree.mk0 (α : Type) : avlTree α := ⟨.nil, 0, false, false, false⟩

/-- `avlTree::insert` (`avlTree.cpp` lines 638-650): sets `h = false`,
`a = true`, delegates to the node-level insert (or creates the root), bumps
`count` when `a` remained true, and returns `a`. -/
def avlTree.insert (t : avlTree α) (x : α) : avlTree α × Bool :=
  match t.root with
  | .nil => (⟨.node x 1 0 .nil .nil, t.count + 1, true, true, t.r⟩, true)
  | .node k c b l r =>
    let res := Tree.insert x (Tree.node k c b l r)
    (⟨res.1, if res.2.2 then t.count + 1 else t.count, res.2.1, res.2.2, t.r⟩,
      res.2.2)

/-- `avlTree::erase` (`avlTree.cpp` lines 663-672): sets `h = false`,
`r = false`, delegates to the node-level erase when the root is not null,
decrements `count` when `r` came back true, and returns `r`. -/
def avlTree.erase (t : avlTree α) (x : α) : Option (avlTree α × Bool) :=
  match t.root with
  | .nil => some (⟨.nil, t.count, false, t.a, false⟩, false)
  | .node k c b l r =>
    match Tree.erase x (Tree.node k c b l r) with
    | none => none
    | some res =>
      some (⟨res.1, if res.2.2 then t.count - 1 else t.count, res.2.1, t.a,
        res.2.2⟩, res.2.2)

/-- `avlTree::contains` (`avlTree.cpp` lines 617-623). -/
def avlTree.contains (t : avlTree α) (x : α) : Bool :=
  Tree.contains x t.root

/-- `avlTree::size` (`avlTree.cpp` lines 597-599). -/
def avlTree.size (t : avlTree α) : Nat := t.count

/-- `avlTree::empty` (`avlTree.cpp` lines 603-605). -/
def avlTree.isEmpty (t : avlTree α) : Bool := t.count = 0

/-- `avlTree::clear` (`avlTree.cpp` lines 688-694): deletes every node and
resets `root` and `count`. -/
def avlTree.clear (t : avlTree α) : avlTree α :=
  ⟨.nil, 0, t.h, t.a, t.r⟩

/-- `avlTree::getKeys` (`avlTree.cpp` lines 704-709): in-order walk from the
root. -/
def avlTree.getKeys (t : avlTree α) : List α :=
  Tree.getKeys t.root

/-- Container states reachable from a freshly constructed `avlTree` through
the public mutating operations `insert`, `erase` and `clear`. -/
inductive avlTree.Reachable : avlTree α → Prop where
  | init : avlTree.Reachable (avlTree.mk0 α)
  | ins (s : avlTree α) (x : α) : avlTree.Reachable s →
      avlTree.Reachable (s.insert x).1
  | del (s s' : avlTree α) (x : α) (b : Bool) : avlTree.Reachable s →
      s.erase x = some (s', b) → avlTree.Reachable s'
  | clr (s : avlTree α) : avlTree.Reachable s → avlTree.Reachable s.clear

/-! ### Basic lemmas about keys, ordering and the rotation helpers -/

theorem Tree.ordered_iff_sorted (t : Tree α) :
    t.ordered ↔ t.getKeys.Sorted (· < ·) := by
  induction t with
  | nil => simp [Tree.ordered, Tree.getKeys]
  | node k c b l r ihl ihr =>
    simp only [Tree.ordered, Tree.getKeys, List.Sorted, List.pairwise_append,
      List.pairwise_cons, ihl, ihr]
    constructor
    · rintro ⟨h1, h2, h3, h4⟩
      refine ⟨h3, ⟨h2, h4⟩, fun a ha y hy => ?_⟩
      rcases List.mem_cons.1 hy with rfl | hy
      · exact h1 a ha
      · exact lt_trans (h1 a ha) (h2 y hy)
    · rintro ⟨h3, ⟨h2, h4⟩, hcross⟩
      exact ⟨fun y hy => hcross y hy k (List.mem_cons_self _ _), h2, h3, h4⟩

theorem Tree.sorted_getKeys (t : Tree α) (h : t.ordered) :
    t.getKeys.Sorted (· < ·) := (Tree.ordered_iff_sorted t).1 h

theorem Tree.rebalanceInsL_keys (k : α) (c : Nat) (l r : Tree α) :
    (Tree.rebalanceInsL k c l r).getKeys = l.getKeys ++ k :: r.getKeys := by
  cases l with
  | nil => simp [Tree.rebalanceInsL, Tree.getKeys]
  | node k1 c1 b1 l1 r1 =>
    cases r1 with
    | nil =>
      by_cases h1 : b1 = -1 <;>
        simp [Tree.rebalanceInsL, Tree.getKeys, h1, List.append_assoc]
    | node k2 c2 b2 l2 r2 =>
      by_cases h1 : b1 = -1 <;>
        simp [Tree.rebalanceInsL, Tree.getKeys, h1, List.append_assoc]

theorem Tree.rebalanceInsR_keys (k : α) (c : Nat) (l r : Tree α) :
    (Tree.rebalanceInsR k c l r).getKeys = l.getKeys ++ k :: r.getKeys := by
  cases r with
  | nil => simp [Tree.rebalanceInsR, Tree.getKeys]
  | node k1 c1 b1 l1 r1 =>
    cases l1 with
    | nil =>
      by_cases h1 : b1 = 1 <;>
        simp [Tree.rebalanceInsR, Tree.getKeys, h1, List.append_assoc]
    | node k2 c2 b2 l2 r2 =>
      by_cases h1 : b1 = 1 <;>
        simp [Tree.rebalanceInsR, Tree.getKeys, h1, List.append_assoc]

theorem Tree.balanceLeft_keys (t : Tree α) :
    (Tree.balanceLeft t).1.getKeys = t.getKeys := by
  cases t with
  | nil => rfl
  | node k c b l r =>
    cases r with
    | nil =>
      simp only [Tree.balanceLeft]
      split_ifs <;> simp [Tree.getKeys]
    | node k1 c1 b1 l1 r1 =>
      cases l1 with
      | nil =>
        simp only [Tree.balanceLeft]
        split_ifs <;> simp [Tree.getKeys, List.append_assoc]
      | node k2 c2 b2 l2 r2 =>
        simp only [Tree.balanceLeft]
        split_ifs <;> simp [Tree.getKeys, List.append_assoc]

theorem Tree.balanceRight_keys (t : Tree α) :
    (Tree.balanceRight t).1.getKeys = t.getKeys := by
  cases t with
  | nil => rfl
  | node k c b l r =>
    cases l with
    | nil =>
      simp only [Tree.balanceRight]
      split_ifs <;> simp [Tree.getKeys]
    | node k1 c1 b1 l1 r1 =>
      cases r1 with
      | nil =>
        simp only [Tree.balanceRight]
        split_ifs <;> simp [Tree.getKeys, List.append_assoc]
      | node k2 c2 b2 l2 r2 =>
        simp only [Tree.balanceRight]
        split_ifs <;> simp [Tree.getKeys, List.append_assoc]

theorem Tree.eraseRight_keys (r : Tree α) :
    ∀ (k : α) (c : Nat) (b : Int) (l : Tree α),
      (Tree.eraseRight k c b l r).1.getKeys ++ [(Tree.eraseRight k c b l r).2.2.1] =
        l.getKeys ++ k :: r.getKeys := by
  induction r with
  | nil => intro k c b l; simp [Tree.eraseRight, Tree.getKeys]
  | node rk rc rb rl rr ihl ihr =>
    intro k c b l
    simp only [Tree.eraseRight]
    split_ifs with h
    · rw [Tree.balanceRight_keys]
      simp only [Tree.getKeys, List.cons_append, List.append_assoc]
      rw [ihr rk rc rb rl]
    · simp only [Tree.getKeys, List.cons_append, List.append_assoc]
      rw [ihr rk rc rb rl]

theorem Tree.eraseLeft_keys (l : Tree α) :
    ∀ (k : α) (c : Nat) (b : Int) (r : Tree α),
      (Tree.eraseLeft k c b r l).2.2.1 :: (Tree.eraseLeft k c b r l).1.getKeys =
        l.getKeys ++ k :: r.getKeys := by
  induction l with
  | nil => intro k c b r; simp [Tree.eraseLeft, Tree.getKeys]
  | node lk lc lb ll lr ihl ihr =>
    intro k c b r
    simp only [Tree.eraseLeft]
    split_ifs with h
    · rw [show ((Tree.balanceLeft (.node k c b (Tree.eraseLeft lk lc lb lr ll).1 r)).1.getKeys)
          = (Tree.node k c b (Tree.eraseLeft lk lc lb lr ll).1 r).getKeys from
          Tree.balanceLeft_keys _]
      simp only [Tree.getKeys, List.cons_append, List.append_assoc]
      rw [← List.cons_append, ihl lk lc lb lr]
      simp [List.append_assoc]
    · simp only [Tree.getKeys, List.cons_append, List.append_assoc]
      rw [← List.cons_append, ihl lk lc lb lr]
      simp [List.append_assoc]

/-! ### Key-list behaviour of `Tree.insert` -/

theorem Tree.insert_keys_left (x k : α) (c : Nat) (b : Int) (l r : Tree α) (hx : x < k) :
    (Tree.insert x (.node k c b l r)).1.getKeys =
      (Tree.insert x l).1.getKeys ++ k :: r.getKeys := by
  simp only [Tree.insert, if_pos hx]
  split_ifs <;> simp [Tree.getKeys, Tree.rebalanceInsL_keys]

theorem Tree.insert_keys_right (x k : α) (c : Nat) (b : Int) (l r : Tree α) (hx : k < x) :
    (Tree.insert x (.node k c b l r)).1.getKeys =
      l.getKeys ++ k :: (Tree.insert x r).1.getKeys := by
  simp only [Tree.insert, if_neg (lt_asymm hx), if_pos hx]
  split_ifs <;> simp [Tree.getKeys, Tree.rebalanceInsR_keys]

theorem Tree.insert_keys_self (x : α) (c : Nat) (b : Int) (l r : Tree α) :
    (Tree.insert x (.node x c b l r)).1.getKeys = (Tree.node x c b l r).getKeys := by
  simp [Tree.insert, lt_irrefl, Tree.getKeys]

theorem Tree.insert_a_left (x k : α) (c : Nat) (b : Int) (l r : Tree α) (hx : x < k) :
    (Tree.insert x (.node k c b l r)).2.2 = (Tree.insert x l).2.2 := by
  simp only [Tree.insert, if_pos hx]
  split_ifs <;> rfl

theorem Tree.insert_a_right (x k : α) (c : Nat) (b : Int) (l r : Tree α) (hx : k < x) :
    (Tree.insert x (.node k c b l r)).2.2 = (Tree.insert x r).2.2 := by
  simp only [Tree.insert, if_neg (lt_asymm hx), if_pos hx]
  split_ifs <;> rfl

theorem Tree.insert_a_self (x : α) (c : Nat) (b : Int) (l r : Tree α) :
    (Tree.insert x (.node x c b l r)).2.2 = false := by
  simp [Tree.insert, lt_irrefl]

theorem Tree.insert_mem (x : α) (t : Tree α) (y : α) :
    y ∈ (t.insert x).1.getKeys ↔ y = x ∨ y ∈ t.getKeys := by
  induction t with
  | nil => simp [Tree.insert, Tree.getKeys]
  | node k c b l r ihl ihr =>
    rcases lt_trichotomy x k with hx | hx | hx
    · rw [Tree.insert_keys_left x k c b l r hx]
      simp only [Tree.getKeys, List.mem_append, List.mem_cons, ihl]
      tauto
    · subst hx
      rw [Tree.insert_keys_self]
      simp only [Tree.getKeys, List.mem_append, List.mem_cons]
      tauto
    · rw [Tree.insert_keys_right x k c b l r hx]
      simp only [Tree.getKeys, List.mem_append, List.mem_cons, ihr]
      tauto

theorem Tree.insert_ordered (x : α) (t : Tree α) (h : t.ordered) :
    (t.insert x).1.ordered := by
  induction t with
  | nil => simp [Tree.insert, Tree.ordered, Tree.getKeys]
  | node k c b l r ihl ihr =>
    obtain ⟨hbl, hbr, hol, hor⟩ := h
    rcases lt_trichotomy x k with hx | hx | hx
    · have hord : (Tree.node k c b (Tree.insert x l).1 r).ordered := by
        refine ⟨?_, hbr, ihl hol, hor⟩
        intro y hy
        rcases (Tree.insert_mem x l y).1 hy with rfl | hy
        · exact hx
        · exact hbl y hy
      rw [Tree.ordered_iff_sorted, Tree.insert_keys_left x k c b l r hx]
      simpa [Tree.getKeys] using (Tree.ordered_iff_sorted _).1 hord
    · subst hx
      rw [Tree.ordered_iff_sorted, Tree.insert_keys_self]
      exact (Tree.ordered_iff_sorted _).1 ⟨hbl, hbr, hol, hor⟩
    · have hord : (Tree.node k c b l (Tree.insert x r).1).ordered := by
        refine ⟨hbl, ?_, hol, ihr hor⟩
        intro y hy
        rcases (Tree.insert_mem x r y).1 hy with rfl | hy
        · exact hx
        · exact hbr y hy
      rw [Tree.ordered_iff_sorted, Tree.insert_keys_right x k c b l r hx]
      simpa [Tree.getKeys] using (Tree.ordered_iff_sorted _).1 hord

theorem Tree.insert_len (x : α) (t : Tree α) :
    (t.insert x).1.getKeys.length =
      t.getKeys.length + (if (t.insert x).2.2 then 1 else 0) := by
  induction t with
  | nil => simp [Tree.insert, Tree.getKeys]
  | node k c b l r ihl ihr =>
    rcases lt_trichotomy x k with hx | hx | hx
    · rw [Tree.insert_keys_left x k c b l r hx, Tree.insert_a_left x k c b l r hx]
      simp only [Tree.getKeys, List.length_append, List.length_cons, ihl]
      split_ifs <;> omega
    · subst hx
      rw [Tree.insert_keys_self, Tree.insert_a_self]
      simp
    · rw [Tree.insert_keys_right x k c b l r hx, Tree.insert_a_right x k c b l r hx]
      simp only [Tree.getKeys, List.length_append, List.length_cons, ihr]
      split_ifs <;> omega

theorem Tree.insert_a_eq (x : α) (t : Tree α) :
    (t.insert x).2.2 = !(t.contains x) := by
  induction t with
  | nil => simp [Tree.insert, Tree.contains]
  | node k c b l r ihl ihr =>
    rcases lt_trichotomy x k with hx | hx | hx
    · rw [Tree.insert_a_left x k c b l r hx]
      simp [Tree.contains, if_pos hx, ihl]
    · subst hx
      rw [Tree.insert_a_self]
      simp [Tree.contains, lt_irrefl]
    · rw [Tree.insert_a_right x k c b l r hx]
      simp [Tree.contains, if_neg (lt_asymm hx), if_pos hx, ihr]

/-- Helper describing the entire effect of a duplicate-key insertion into the
set container: the `copies` field of the node found on the search path for
`x` is incremented, and nothing else (no key, balance factor or child link)
changes. -/
def Tree.bumpCopies (x : α) : Tree α → Tree α
  | .nil => .nil
  | .node k c b l r =>
    if x < k then .node k c b (Tree.bumpCopies x l) r
    else if k < x then .node k c b l (Tree.bumpCopies x r)
    else .node k (c + 1) b l r

theorem Tree.insert_dup (x : α) (t : Tree α) (h : t.contains x = true) :
    t.insert x = (t.bumpCopies x, false, false) := by
  induction t with
  | nil => simp [Tree.contains] at h
  | node k c b l r ihl ihr =>
    rcases lt_trichotomy x k with hx | hx | hx
    · have hl : l.contains x = true := by
        simpa [Tree.contains, if_pos hx] using h
      simp [Tree.insert, if_pos hx, ihl hl, Tree.bumpCopies]
    · subst hx
      simp [Tree.insert, lt_irrefl, Tree.bumpCopies]
    · have hr : r.contains x = true := by
        simpa [Tree.contains, if_neg (lt_asymm hx), if_pos hx] using h
      simp [Tree.insert, if_neg (lt_asymm hx), if_pos hx, ihr hr, Tree.bumpCopies,
        lt_asymm hx]

/-! ### Balance and height behaviour of `Tree.insert` -/

theorem Tree.rebalanceInsL_bal (k : α) (c : Nat) (l r : Tree α)
    (hbl : l.balanced) (hbr : r.balanced)
    (hh : l.height = r.height + 2) (hb0 : l.rootBal ≠ 0) :
    (Tree.rebalanceInsL k c l r).balanced ∧
      (Tree.rebalanceInsL k c l r).height = r.height + 2 := by
  cases l with
  | nil => simp [Tree.height] at hh
  | node k1 c1 b1 l1 r1 =>
    obtain ⟨hb1, hd1, hd2, hbl1, hbr1⟩ := hbl
    simp only [Tree.rootBal] at hb0
    simp only [Tree.height] at hh
    by_cases h1 : b1 = -1
    · simp only [Tree.rebalanceInsL, if_pos h1]
      subst h1
      simp [Tree.balanced, Tree.height, hbl1, hbr1, hbr] at *
      omega
    · have h1' : b1 = 1 := by omega
      subst h1'
      cases r1 with
      | nil =>
        exfalso
        simp only [Tree.height] at hb1
        omega
      | node k2 c2 b2 l2 r2 =>
        obtain ⟨hb2, he1, he2, hbl2, hbr2⟩ := hbr1
        simp only [Tree.rebalanceInsL, if_neg h1]
        simp only [Tree.height] at hb1 hh ⊢
        split_ifs with hx1 hx2 hx2 <;>
          · simp [Tree.balanced, Tree.height, hbl1, hbl2, hbr2, hbr] at *
            omega

theorem Tree.rebalanceInsR_bal (k : α) (c : Nat) (l r : Tree α)
    (hbl : l.balanced) (hbr : r.balanced)
    (hh : r.height = l.height + 2) (hb0 : r.rootBal ≠ 0) :
    (Tree.rebalanceInsR k c l r).balanced ∧
      (Tree.rebalanceInsR k c l r).height = l.height + 2 := by
  cases r with
  | nil => simp [Tree.height] at hh
  | node k1 c1 b1 l1 r1 =>
    obtain ⟨hb1, hd1, hd2, hbl1, hbr1⟩ := hbr
    simp only [Tree.rootBal] at hb0
    simp only [Tree.height] at hh
    by_cases h1 : b1 = 1
    · simp only [Tree.rebalanceInsR, if_pos h1]
      subst h1
      simp [Tree.balanced, Tree.height, hbl1, hbr1, hbl] at *
      omega
    · have h1' : b1 = -1 := by omega
      subst h1'
      cases l1 with
      | nil =>
        exfalso
        simp only [Tree.height] at hb1
        omega
      | node k2 c2 b2 l2 r2 =>
        obtain ⟨hb2, he1, he2, hbl2, hbr2⟩ := hbl1
        simp only [Tree.rebalanceInsR, if_neg h1]
        simp only [Tree.height] at hb1 hh ⊢
        split_ifs with hx1 hx2 hx2 <;>
          · simp [Tree.balanced, Tree.height, hbr1, hbl2, hbr2, hbl] at *
            omega

theorem Tree.insert_bal (x : α) (t : Tree α) (hb : t.balanced) :
    (t.insert x).1.balanced ∧
      (t.insert x).1.height = t.height + (if (t.insert x).2.1 then 1 else 0) ∧
      ((t.insert x).2.1 = true →
        (t.insert x).1.rootBal ≠ 0 ∨ (t.insert x).1.height = 1) := by
  induction t with
  | nil => simp [Tree.insert, Tree.balanced, Tree.height, Tree.rootBal]
  | node k c b l r ihl ihr =>
    obtain ⟨hbb, hd1, hd2, hbl, hbr⟩ := hb
    rcases lt_trichotomy x k with hx | hx | hx
    · obtain ⟨ihb, ihh, ihf⟩ := ihl hbl
      simp only [Tree.insert, if_pos hx]
      cases hB : (Tree.insert x l).2.1 with
      | false =>
        simp only [hB] at ihh ihf ⊢
        simp only [Bool.false_eq_true, if_false] at ihh ⊢
        simp [Tree.balanced, Tree.height, Tree.rootBal, ihb, hbr]
        omega
      | true =>
        simp only [hB] at ihh ihf ⊢
        simp only [if_true] at ihh ⊢
        have hbc : b = -1 ∨ b = 0 ∨ b = 1 := by omega
        rcases hbc with h | h | h <;> subst h
        · -- left grew, bal was -1 : rotate
          have hgrow : (Tree.insert x l).1.height = r.height + 2 := by omega
          have hnz : (Tree.insert x l).1.rootBal ≠ 0 := by
            rcases ihf trivial with h | h
            · exact h
            · omega
          obtain ⟨hb', hh'⟩ :=
            Tree.rebalanceInsL_bal k c (Tree.insert x l).1 r ihb hbr hgrow hnz
          simp [Tree.height, Tree.rootBal, hb', hh']
          omega
        · -- left grew, bal was 0 : lean left, keep the flag
          simp [Tree.balanced, Tree.height, Tree.rootBal, ihb, hbr]
          omega
        · -- left grew, bal was 1 : balance restored, clear the flag
          simp [Tree.balanced, Tree.height, Tree.rootBal, ihb, hbr]
          omega
    · subst hx
      simp [Tree.insert, lt_irrefl, Tree.balanced, Tree.height, Tree.rootBal, hbl, hbr]
      omega
    · obtain ⟨ihb, ihh, ihf⟩ := ihr hbr
      simp only [Tree.insert, if_neg (lt_asymm hx), if_pos hx]
      cases hB : (Tree.insert x r).2.1 with
      | false =>
        simp only [hB] at ihh ihf ⊢
        simp only [Bool.false_eq_true, if_false] at ihh ⊢
        simp [Tree.balanced, Tree.height, Tree.rootBal, ihb, hbl]
        omega
      | true =>
        simp only [hB] at ihh ihf ⊢
        simp only [if_true] at ihh ⊢
        have hbc : b = -1 ∨ b = 0 ∨ b = 1 := by omega
        rcases hbc with h | h | h <;> subst h
        · -- right grew, bal was -1 : balance restored, clear the flag
          simp [Tree.balanced, Tree.height, Tree.rootBal, ihb, hbl]
          omega
        · -- right grew, bal was 0 : lean right, keep the flag
          simp [Tree.balanced, Tree.height, Tree.rootBal, ihb, hbl]
          omega
        · -- right grew, bal was 1 : rotate
          have hgrow : (Tree.insert x r).1.height = l.height + 2 := by omega
          have hnz : (Tree.insert x r).1.rootBal ≠ 0 := by
            rcases ihf trivial with h | h
            · exact h
            · omega
          obtain ⟨hb', hh'⟩ :=
            Tree.rebalanceInsR_bal k c l (Tree.insert x r).1 hbl ihb hgrow hnz
          simp [Tree.height, Tree.rootBal, hb', hh']
          omega

/-! ### Balance and height behaviour of the deletion-path rebalancers -/

theorem Tree.balanceLeft_bal (k : α) (c : Nat) (b : Int) (l r : Tree α)
    (hbl : l.balanced) (hbr : r.balanced)
    (hb : b + 1 = (r.height : Int) - l.height) (hlo : -1 ≤ b) (hhi : b ≤ 1) :
    (Tree.balanceLeft (.node k c b l r)).1.balanced ∧
      (Tree.balanceLeft (.node k c b l r)).1.height +
        (if (Tree.balanceLeft (.node k c b l r)).2 then 1 else 0) =
        1 + max (l.height + 1) r.height := by
  have hbc : b = -1 ∨ b = 0 ∨ b = 1 := by omega
  rcases hbc with h | h | h <;> subst h
  · -- bal was -1 : balance restored, flag kept
    simp [Tree.balanceLeft, Tree.balanced, Tree.height, hbl, hbr]
    omega
  · -- bal was 0 : lean right, flag cleared
    simp [Tree.balanceLeft, Tree.balanced, Tree.height, hbl, hbr]
    omega
  · -- bal was 1 : the right subtree is two levels deeper, rotate
    cases r with
    | nil =>
      exfalso
      simp only [Tree.height] at hb
      omega
    | node k1 c1 b1 l1 r1 =>
      obtain ⟨hb1, hd1, hd2, hbl1, hbr1⟩ := hbr
      simp only [Tree.height] at hb
      by_cases hpos : (0 : Int) ≤ b1
      · by_cases h0 : b1 = 0
        · subst h0
          simp [Tree.balanceLeft, Tree.balanced, Tree.height, hbl, hbl1, hbr1]
          omega
        · simp [Tree.balanceLeft, Tree.balanced, Tree.height, hpos, h0, hbl, hbl1, hbr1]
          omega
      · cases l1 with
        | nil =>
          exfalso
          simp only [Tree.height] at hb1
          omega
        | node k2 c2 b2 l2 r2 =>
          obtain ⟨hb2, he1, he2, hbl2, hbr2⟩ := hbl1
          simp only [Tree.height] at hb hb1 hd1 hd2
          have hb2c : b2 = -1 ∨ b2 = 0 ∨ b2 = 1 := by omega
          rcases hb2c with h2 | h2 | h2 <;> subst h2 <;>
            · simp [Tree.balanceLeft, Tree.balanced, Tree.height, hpos, hbl, hbl2,
                hbr2, hbr1]
              omega

theorem Tree.balanceRight_bal (k : α) (c : Nat) (b : Int) (l r : Tree α)
    (hbl : l.balanced) (hbr : r.balanced)
    (hb : b - 1 = (r.height : Int) - l.height) (hlo : -1 ≤ b) (hhi : b ≤ 1) :
    (Tree.balanceRight (.node k c b l r)).1.balanced ∧
      (Tree.balanceRight (.node k c b l r)).1.height +
        (if (Tree.balanceRight (.node k c b l r)).2 then 1 else 0) =
        1 + max l.height (r.height + 1) := by
  have hbc : b = -1 ∨ b = 0 ∨ b = 1 := by omega
  rcases hbc with h | h | h <;> subst h
  · -- bal was -1 : the left subtree is two levels deeper, rotate
    cases l with
    | nil =>
      exfalso
      simp only [Tree.height] at hb
      omega
    | node k1 c1 b1 l1 r1 =>
      obtain ⟨hb1, hd1, hd2, hbl1, hbr1⟩ := hbl
      simp only [Tree.height] at hb
      by_cases hneg : b1 ≤ 0
      · by_cases h0 : b1 = 0
        · subst h0
          simp [Tree.balanceRight, Tree.balanced, Tree.height, hbr, hbl1, hbr1]
          omega
        · simp [Tree.balanceRight, Tree.balanced, Tree.height, hneg, h0, hbr, hbl1, hbr1]
          omega
      · cases r1 with
        | nil =>
          exfalso
          simp only [Tree.height] at hb1
          omega
        | node k2 c2 b2 l2 r2 =>
          obtain ⟨hb2, he1, he2, hbl2, hbr2⟩ := hbr1
          simp only [Tree.height] at hb hb1 hd1 hd2
          have hb2c : b2 = -1 ∨ b2 = 0 ∨ b2 = 1 := by omega
          rcases hb2c with h2 | h2 | h2 <;> subst h2 <;>
            · simp [Tree.balanceRight, Tree.balanced, Tree.height, hneg, hbr, hbl2,
                hbr2, hbl1]
              omega
  · -- bal was 0 : lean left, flag cleared
    simp [Tree.balanceRight, Tree.balanced, Tree.height, hbl, hbr]
    omega
  · -- bal was 1 : balance restored, flag kept
    simp [Tree.balanceRight, Tree.balanced, Tree.height, hbl, hbr]
    omega

/-! ### Balance and height behaviour of deletion -/

theorem Tree.eraseRight_bal (r : Tree α) :
    ∀ (k : α) (c : Nat) (b : Int) (l : Tree α), (Tree.node k c b l r).balanced →
      (Tree.eraseRight k c b l r).1.balanced ∧
        (Tree.node k c b l r).height =
          (Tree.eraseRight k c b l r).1.height +
            (if (Tree.eraseRight k c b l r).2.1 then 1 else 0) := by
  induction r with
  | nil =>
    intro k c b l hb
    obtain ⟨hbb, hd1, hd2, hbl, hbr⟩ := hb
    simp only [Tree.eraseRight, if_true, Tree.height] at *
    refine ⟨hbl, ?_⟩
    simp
    omega
  | node rk rc rb rl rr ihl ihr =>
    intro k c b l hb
    obtain ⟨hbb, hd1, hd2, hbl, hbr⟩ := hb
    obtain ⟨ih1, ih2⟩ := ihr rk rc rb rl hbr
    simp only [Tree.eraseRight]
    cases hB : (Tree.eraseRight rk rc rb rl rr).2.1 with
    | false =>
      simp only [hB, Bool.false_eq_true, if_false]
      simp only [hB, Bool.false_eq_true, if_false, add_zero] at ih2
      constructor
      · refine ⟨?_, ?_, ?_, hbl, ih1⟩ <;>
          · simp only [Tree.height, Bool.false_eq_true, if_false, if_true, add_zero] at *
            omega
      · simp only [Tree.height, Bool.false_eq_true, if_false, if_true, add_zero] at *
        omega
    | true =>
      simp only [hB, if_true]
      simp only [hB, if_true] at ih2
      have harg : b - 1 =
          ((Tree.eraseRight rk rc rb rl rr).1.height : Int) - l.height := by
        simp only [Tree.height, Bool.false_eq_true, if_false, if_true, add_zero] at *
        omega
      have hlo : (-1 : Int) ≤ b := by
        simp only [Tree.height, Bool.false_eq_true, if_false, if_true, add_zero] at *
        omega
      have hhi : b ≤ (1 : Int) := by
        simp only [Tree.height, Bool.false_eq_true, if_false, if_true, add_zero] at *
        omega
      obtain ⟨hbal1, hbal2⟩ :=
        Tree.balanceRight_bal k c b l (Tree.eraseRight rk rc rb rl rr).1 hbl ih1
          harg hlo hhi
      refine ⟨hbal1, ?_⟩
      simp only [Tree.height, Bool.false_eq_true, if_false, if_true, add_zero] at *
      omega

theorem Tree.eraseLeft_bal (l : Tree α) :
    ∀ (k : α) (c : Nat) (b : Int) (r : Tree α), (Tree.node k c b l r).balanced →
      (Tree.eraseLeft k c b r l).1.balanced ∧
        (Tree.node k c b l r).height =
          (Tree.eraseLeft k c b r l).1.height +
            (if (Tree.eraseLeft k c b r l).2.1 then 1 else 0) := by
  induction l with
  | nil =>
    intro k c b r hb
    obtain ⟨hbb, hd1, hd2, hbl, hbr⟩ := hb
    simp only [Tree.eraseLeft, if_true, Tree.height] at *
    refine ⟨hbr, ?_⟩
    simp
    omega
  | node lk lc lb ll lr ihl ihr =>
    intro k c b r hb
    obtain ⟨hbb, hd1, hd2, hbl, hbr⟩ := hb
    obtain ⟨ih1, ih2⟩ := ihl lk lc lb lr hbl
    simp only [Tree.eraseLeft]
    cases hB : (Tree.eraseLeft lk lc lb lr ll).2.1 with
    | false =>
      simp only [hB, Bool.false_eq_true, if_false]
      simp only [hB, Bool.false_eq_true, if_false, add_zero] at ih2
      constructor
      · refine ⟨?_, ?_, ?_, ih1, hbr⟩ <;>
          · simp only [Tree.height, Bool.false_eq_true, if_false, if_true, add_zero] at *
            omega
      · simp only [Tree.height, Bool.false_eq_true, if_false, if_true, add_zero] at *
        omega
    | true =>
      simp only [hB, if_true]
      simp only [hB, if_true] at ih2
      have harg : b + 1 =
          (r.height : Int) - (Tree.eraseLeft lk lc lb lr ll).1.height := by
        simp only [Tree.height, Bool.false_eq_true, if_false, if_true, add_zero] at *
        omega
      have hlo : (-1 : Int) ≤ b := by
        simp only [Tree.height, Bool.false_eq_true, if_false, if_true, add_zero] at *
        omega
      have hhi : b ≤ (1 : Int) := by
        simp only [Tree.height, Bool.false_eq_true, if_false, if_true, add_zero] at *
        omega
      obtain ⟨hbal1, hbal2⟩ :=
        Tree.balanceLeft_bal k c b (Tree.eraseLeft lk lc lb lr ll).1 r ih1 hbr
          harg hlo hhi
      refine ⟨hbal1, ?_⟩
      simp only [Tree.height, Bool.false_eq_true, if_false, if_true, add_zero] at *
      omega

theorem Tree.erase_bal (x : α) (t : Tree α) (hb : t.balanced) :
    ∀ t' h' r', t.erase x = some (t', h', r') →
      t'.balanced ∧ t.height = t'.height + (if h' then 1 else 0) := by
  induction t with
  | nil =>
    intro t' h' r' he
    simp only [Tree.erase, Option.some.injEq, Prod.mk.injEq] at he
    obtain ⟨rfl, rfl, rfl⟩ := he
    simp [Tree.balanced, Tree.height]
  | node k c b l r ihl ihr =>
    intro t' h' r' he
    obtain ⟨hbb, hd1, hd2, hbl, hbr⟩ := hb
    rcases lt_trichotomy x k with hx | hx | hx
    · simp only [Tree.erase, if_pos hx] at he
      cases hE : l.erase x with
      | none => rw [hE] at he; exact absurd he (by simp)
      | some resL =>
        rw [hE] at he
        obtain ⟨ihb, ihh⟩ := ihl hbl resL.1 resL.2.1 resL.2.2 (by rw [hE])
        cases hB : resL.2.1 with
        | false =>
          simp only [hB, Bool.false_eq_true, if_false] at he ihh
          simp only [Option.some.injEq, Prod.mk.injEq] at he
          obtain ⟨rfl, rfl, rfl⟩ := he
          simp only [add_zero] at ihh
          constructor
          · refine ⟨?_, ?_, ?_, ihb, hbr⟩ <;>
              · simp only [Tree.height, Bool.false_eq_true, if_false, if_true, add_zero] at *
                omega
          · simp only [Tree.height, Bool.false_eq_true, if_false, if_true, add_zero] at *
            omega
        | true =>
          simp only [hB, if_true] at he ihh
          simp only [Option.some.injEq, Prod.mk.injEq] at he
          have harg : b + 1 = (r.height : Int) - resL.1.height := by
            simp only [Tree.height, Bool.false_eq_true, if_false, if_true, add_zero] at *
            omega
          have hlo : (-1 : Int) ≤ b := by omega
          have hhi : b ≤ (1 : Int) := by omega
          obtain ⟨hbal1, hbal2⟩ :=
            Tree.balanceLeft_bal k c b resL.1 r ihb hbr harg hlo hhi
          obtain ⟨rfl, rfl, rfl⟩ := he
          refine ⟨hbal1, ?_⟩
          simp only [Tree.height, Bool.false_eq_true, if_false, if_true, add_zero] at *
          omega
    · -- x = k : the node to delete
      subst hx
      simp only [Tree.erase, lt_irrefl, if_false] at he
      by_cases hc : c ≤ 1
      · rw [if_pos hc] at he
        cases r with
        | nil =>
          simp only [Option.some.injEq, Prod.mk.injEq] at he
          obtain ⟨rfl, rfl, rfl⟩ := he
          refine ⟨hbl, ?_⟩
          simp only [Tree.height, Bool.false_eq_true, if_false, if_true, add_zero] at *
          simp
          omega
        | node rk rc rb rl rr =>
          cases l with
          | nil =>
            simp only [Option.some.injEq, Prod.mk.injEq] at he
            obtain ⟨rfl, rfl, rfl⟩ := he
            refine ⟨hbr, ?_⟩
            simp only [Tree.height, Bool.false_eq_true, if_false, if_true, add_zero] at *
            simp
            omega
          | node lk lc lb ll lr =>
            simp only [] at he
            by_cases hb0 : b = 0 ∨ b = -1
            · rw [if_pos hb0] at he
              obtain ⟨er1, er2⟩ := Tree.eraseRight_bal lr lk lc lb ll hbl
              cases hB : (Tree.eraseRight lk lc lb ll lr).2.1 with
              | false =>
                simp only [hB, Bool.false_eq_true, if_false] at he
                simp only [Option.some.injEq, Prod.mk.injEq] at he
                obtain ⟨rfl, rfl, rfl⟩ := he
                simp only [hB, Bool.false_eq_true, if_false, add_zero] at er2
                constructor
                · refine ⟨?_, ?_, ?_, er1, hbr⟩ <;>
                    · simp only [Tree.height, Bool.false_eq_true, if_false, if_true, add_zero] at *
                      omega
                · simp only [Tree.height, Bool.false_eq_true, if_false, if_true, add_zero] at *
                  omega
              | true =>
                simp only [hB, if_true] at he
                simp only [Option.some.injEq, Prod.mk.injEq] at he
                simp only [hB, if_true] at er2
                have harg : b + 1 = ((Tree.node rk rc rb rl rr).height : Int) -
                    (Tree.eraseRight lk lc lb ll lr).1.height := by
                  simp only [Tree.height, Bool.false_eq_true, if_false, if_true, add_zero] at *
                  omega
                have hlo : (-1 : Int) ≤ b := by omega
                have hhi : b ≤ (1 : Int) := by omega
                obtain ⟨hbal1, hbal2⟩ :=
                  Tree.balanceLeft_bal (Tree.eraseRight lk lc lb ll lr).2.2.1
                    (Tree.eraseRight lk lc lb ll lr).2.2.2 b
                    (Tree.eraseRight lk lc lb ll lr).1 (Tree.node rk rc rb rl rr)
                    er1 hbr harg hlo hhi
                obtain ⟨rfl, rfl, rfl⟩ := he
                refine ⟨hbal1, ?_⟩
                simp only [Tree.height, Bool.false_eq_true, if_false, if_true, add_zero] at *
                omega
            · rw [if_neg hb0] at he
              by_cases hb1 : b = 1
              · rw [if_pos hb1] at he
                obtain ⟨er1, er2⟩ := Tree.eraseLeft_bal rl rk rc rb rr hbr
                cases hB : (Tree.eraseLeft rk rc rb rr rl).2.1 with
                | false =>
                  simp only [hB, Bool.false_eq_true, if_false] at he
                  simp only [Option.some.injEq, Prod.mk.injEq] at he
                  obtain ⟨rfl, rfl, rfl⟩ := he
                  simp only [hB, Bool.false_eq_true, if_false, add_zero] at er2
                  constructor
                  · refine ⟨?_, ?_, ?_, hbl, er1⟩ <;>
                      · simp only [Tree.height, Bool.false_eq_true, if_false, if_true, add_zero] at *
                        omega
                  · simp only [Tree.height, Bool.false_eq_true, if_false, if_true, add_zero] at *
                    omega
                | true =>
                  simp only [hB, if_true] at he
                  simp only [Option.some.injEq, Prod.mk.injEq] at he
                  simp only [hB, if_true] at er2
                  have harg : b - 1 =
                      ((Tree.eraseLeft rk rc rb rr rl).1.height : Int) -
                        (Tree.node lk lc lb ll lr).height := by
                    simp only [Tree.height, Bool.false_eq_true, if_false, if_true, add_zero] at *
                    omega
                  have hlo : (-1 : Int) ≤ b := by omega
                  have hhi : b ≤ (1 : Int) := by omega
                  obtain ⟨hbal1, hbal2⟩ :=
                    Tree.balanceRight_bal (Tree.eraseLeft rk rc rb rr rl).2.2.1
                      (Tree.eraseLeft rk rc rb rr rl).2.2.2 b
                      (Tree.node lk lc lb ll lr) (Tree.eraseLeft rk rc rb rr rl).1
                      hbl er1 harg hlo hhi
                  obtain ⟨rfl, rfl, rfl⟩ := he
                  refine ⟨hbal1, ?_⟩
                  simp only [Tree.height, Bool.false_eq_true, if_false, if_true, add_zero] at *
                  omega
              · exfalso
                rw [if_neg hb1] at he
                simp at he
      · rw [if_neg hc] at he
        simp only [Option.some.injEq, Prod.mk.injEq] at he
        obtain ⟨rfl, rfl, rfl⟩ := he
        constructor
        · exact ⟨hbb, hd1, hd2, hbl, hbr⟩
        · simp [Tree.height]
    · simp only [Tree.erase, if_neg (lt_asymm hx), if_pos hx] at he
      cases hE : r.erase x with
      | none => rw [hE] at he; exact absurd he (by simp)
      | some resR =>
        rw [hE] at he
        obtain ⟨ihb, ihh⟩ := ihr hbr resR.1 resR.2.1 resR.2.2 (by rw [hE])
        cases hB : resR.2.1 with
        | false =>
          simp only [hB, Bool.false_eq_true, if_false] at he ihh
          simp only [Option.some.injEq, Prod.mk.injEq] at he
          obtain ⟨rfl, rfl, rfl⟩ := he
          simp only [add_zero] at ihh
          constructor
          · refine ⟨?_, ?_, ?_, hbl, ihb⟩ <;>
              · simp only [Tree.height, Bool.false_eq_true, if_false, if_true, add_zero] at *
                omega
          · simp only [Tree.height, Bool.false_eq_true, if_false, if_true, add_zero] at *
            omega
        | true =>
          simp only [hB, if_true] at he ihh
          simp only [Option.some.injEq, Prod.mk.injEq] at he
          have harg : b - 1 = (resR.1.height : Int) - l.height := by
            simp only [Tree.height, Bool.false_eq_true, if_false, if_true, add_zero] at *
            omega
          have hlo : (-1 : Int) ≤ b := by omega
          have hhi : b ≤ (1 : Int) := by omega
          obtain ⟨hbal1, hbal2⟩ :=
            Tree.balanceRight_bal k c b l resR.1 hbl ihb harg hlo hhi
          obtain ⟨rfl, rfl, rfl⟩ := he
          refine ⟨hbal1, ?_⟩
          simp only [Tree.height, Bool.false_eq_true, if_false, if_true, add_zero] at *
          omega

/-! ### Key-list behaviour of deletion -/

theorem Tree.erase_keys (x : α) (t : Tree α) :
    ∀ t' h' r', t.erase x = some (t', h', r') →
      (r' = true ∧ ∃ pre post, t.getKeys = pre ++ x :: post ∧
        t'.getKeys = pre ++ post) ∨
      (r' = false ∧ t'.getKeys = t.getKeys) := by
  induction t with
  | nil =>
    intro t' h' r' he
    simp only [Tree.erase, Option.some.injEq, Prod.mk.injEq] at he
    obtain ⟨rfl, rfl, rfl⟩ := he
    exact Or.inr ⟨rfl, rfl⟩
  | node k c b l r ihl ihr =>
    intro t' h' r' he
    rcases lt_trichotomy x k with hx | hx | hx
    · simp only [Tree.erase, if_pos hx] at he
      cases hE : l.erase x with
      | none => rw [hE] at he; exact absurd he (by simp)
      | some resL =>
        rw [hE] at he
        have ih := ihl resL.1 resL.2.1 resL.2.2 (by rw [hE])
        have hkeys : t'.getKeys = resL.1.getKeys ++ k :: r.getKeys := by
          cases hB : resL.2.1 with
          | false =>
            simp only [hB, Bool.false_eq_true, if_false, Option.some.injEq,
              Prod.mk.injEq] at he
            obtain ⟨rfl, rfl, rfl⟩ := he
            simp [Tree.getKeys]
          | true =>
            simp only [hB, if_true, Option.some.injEq, Prod.mk.injEq] at he
            obtain ⟨rfl, rfl, rfl⟩ := he
            rw [Tree.balanceLeft_keys]
            simp [Tree.getKeys]
        have hr' : r' = resL.2.2 := by
          cases hB : resL.2.1 with
          | false =>
            simp only [hB, Bool.false_eq_true, if_false, Option.some.injEq,
              Prod.mk.injEq] at he
            exact he.2.2.symm
          | true =>
            simp only [hB, if_true, Option.some.injEq, Prod.mk.injEq] at he
            exact he.2.2.symm
        subst hr'
        rcases ih with ⟨hrt, pre, post, hl1, hl2⟩ | ⟨hrf, hsame⟩
        · refine Or.inl ⟨hrt, pre, post ++ k :: r.getKeys, ?_, ?_⟩
          · simp [Tree.getKeys, hl1, List.append_assoc]
          · simp [hkeys, hl2, List.append_assoc]
        · exact Or.inr ⟨hrf, by simp [hkeys, hsame, Tree.getKeys]⟩
    · subst hx
      simp only [Tree.erase, lt_irrefl, if_false] at he
      by_cases hc : c ≤ 1
      · rw [if_pos hc] at he
        cases r with
        | nil =>
          simp only [Option.some.injEq, Prod.mk.injEq] at he
          obtain ⟨rfl, rfl, rfl⟩ := he
          exact Or.inl ⟨rfl, l.getKeys, [], by simp [Tree.getKeys], by simp⟩
        | node rk rc rb rl rr =>
          cases l with
          | nil =>
            simp only [Option.some.injEq, Prod.mk.injEq] at he
            obtain ⟨rfl, rfl, rfl⟩ := he
            exact Or.inl ⟨rfl, [], (Tree.node rk rc rb rl rr).getKeys, by simp [Tree.getKeys], by simp⟩
          | node lk lc lb ll lr =>
            simp only [] at he
            by_cases hb0 : b = 0 ∨ b = -1
            · rw [if_pos hb0] at he
              have hkl := Tree.eraseRight_keys lr lk lc lb ll
              have hkeys : t'.getKeys =
                  (Tree.eraseRight lk lc lb ll lr).1.getKeys ++
                    (Tree.eraseRight lk lc lb ll lr).2.2.1 ::
                      (Tree.node rk rc rb rl rr).getKeys := by
                cases hB : (Tree.eraseRight lk lc lb ll lr).2.1 with
                | false =>
                  simp only [hB, Bool.false_eq_true, if_false, Option.some.injEq,
                    Prod.mk.injEq] at he
                  obtain ⟨rfl, rfl, rfl⟩ := he
                  simp [Tree.getKeys]
                | true =>
                  simp only [hB, if_true, Option.some.injEq, Prod.mk.injEq] at he
                  obtain ⟨rfl, rfl, rfl⟩ := he
                  rw [Tree.balanceLeft_keys]
                  simp [Tree.getKeys]
              have hr' : r' = true := by
                cases hB : (Tree.eraseRight lk lc lb ll lr).2.1 with
                | false =>
                  simp only [hB, Bool.false_eq_true, if_false, Option.some.injEq,
                    Prod.mk.injEq] at he
                  exact he.2.2.symm
                | true =>
                  simp only [hB, if_true, Option.some.injEq, Prod.mk.injEq] at he
                  exact he.2.2.symm
              refine Or.inl ⟨hr', (Tree.node lk lc lb ll lr).getKeys,
                (Tree.node rk rc rb rl rr).getKeys, by simp [Tree.getKeys], ?_⟩
              rw [hkeys]
              simp only [Tree.getKeys]
              rw [← hkl]
              simp [List.append_assoc]
            · rw [if_neg hb0] at he
              by_cases hb1 : b = 1
              · rw [if_pos hb1] at he
                have hkr := Tree.eraseLeft_keys rl rk rc rb rr
                have hkeys : t'.getKeys =
                    (Tree.node lk lc lb ll lr).getKeys ++
                      (Tree.eraseLeft rk rc rb rr rl).2.2.1 ::
                        (Tree.eraseLeft rk rc rb rr rl).1.getKeys := by
                  cases hB : (Tree.eraseLeft rk rc rb rr rl).2.1 with
                  | false =>
                    simp only [hB, Bool.false_eq_true, if_false, Option.some.injEq,
                      Prod.mk.injEq] at he
                    obtain ⟨rfl, rfl, rfl⟩ := he
                    simp [Tree.getKeys]
                  | true =>
                    simp only [hB, if_true, Option.some.injEq, Prod.mk.injEq] at he
                    obtain ⟨rfl, rfl, rfl⟩ := he
                    rw [Tree.balanceRight_keys]
                    simp [Tree.getKeys]
                have hr' : r' = true := by
                  cases hB : (Tree.eraseLeft rk rc rb rr rl).2.1 with
                  | false =>
                    simp only [hB, Bool.false_eq_true, if_false, Option.some.injEq,
                      Prod.mk.injEq] at he
                    exact he.2.2.symm
                  | true =>
                    simp only [hB, if_true, Option.some.injEq, Prod.mk.injEq] at he
                    exact he.2.2.symm
                refine Or.inl ⟨hr', (Tree.node lk lc lb ll lr).getKeys,
                  (Tree.node rk rc rb rl rr).getKeys, by simp [Tree.getKeys], ?_⟩
                rw [hkeys]
                simp only [Tree.getKeys]
                rw [← hkr]
              · rw [if_neg hb1] at he
                exact absurd he (by simp)
      · rw [if_neg hc] at he
        simp only [Option.some.injEq, Prod.mk.injEq] at he
        obtain ⟨rfl, rfl, rfl⟩ := he
        exact Or.inr ⟨rfl, by simp [Tree.getKeys]⟩
    · simp only [Tree.erase, if_neg (lt_asymm hx), if_pos hx] at he
      cases hE : r.erase x with
      | none => rw [hE] at he; exact absurd he (by simp)
      | some resR =>
        rw [hE] at he
        have ih := ihr resR.1 resR.2.1 resR.2.2 (by rw [hE])
        have hkeys : t'.getKeys = l.getKeys ++ k :: resR.1.getKeys := by
          cases hB : resR.2.1 with
          | false =>
            simp only [hB, Bool.false_eq_true, if_false, Option.some.injEq,
              Prod.mk.injEq] at he
            obtain ⟨rfl, rfl, rfl⟩ := he
            simp [Tree.getKeys]
          | true =>
            simp only [hB, if_true, Option.some.injEq, Prod.mk.injEq] at he
            obtain ⟨rfl, rfl, rfl⟩ := he
            rw [Tree.balanceRight_keys]
            simp [Tree.getKeys]
        have hr' : r' = resR.2.2 := by
          cases hB : resR.2.1 with
          | false =>
            simp only [hB, Bool.false_eq_true, if_false, Option.some.injEq,
              Prod.mk.injEq] at he
            exact he.2.2.symm
          | true =>
            simp only [hB, if_true, Option.some.injEq, Prod.mk.injEq] at he
            exact he.2.2.symm
        subst hr'
        rcases ih with ⟨hrt, pre, post, hl1, hl2⟩ | ⟨hrf, hsame⟩
        · refine Or.inl ⟨hrt, l.getKeys ++ k :: pre, post, ?_, ?_⟩
          · simp [Tree.getKeys, hl1, List.append_assoc]
          · simp [hkeys, hl2, List.append_assoc]
        · exact Or.inr ⟨hrf, by simp [hkeys, hsame, Tree.getKeys]⟩

theorem Tree.erase_sublist (x : α) (t : Tree α) (t' : Tree α) (h' r' : Bool)
    (he : t.erase x = some (t', h', r')) : t'.getKeys.Sublist t.getKeys := by
  rcases Tree.erase_keys x t t' h' r' he with ⟨_, pre, post, h1, h2⟩ | ⟨_, h2⟩
  · rw [h1, h2]
    exact List.Sublist.append_left (List.sublist_cons_self x post) pre
  · rw [h2]

theorem Tree.erase_ordered (x : α) (t : Tree α) (ho : t.ordered)
    (t' : Tree α) (h' r' : Bool) (he : t.erase x = some (t', h', r')) :
    t'.ordered := by
  rw [Tree.ordered_iff_sorted]
  exact ((Tree.ordered_iff_sorted t).1 ho).sublist (Tree.erase_sublist x t t' h' r' he)

theorem Tree.erase_len (x : α) (t : Tree α) (t' : Tree α) (h' r' : Bool)
    (he : t.erase x = some (t', h', r')) :
    t'.getKeys.length + (if r' then 1 else 0) = t.getKeys.length := by
  rcases Tree.erase_keys x t t' h' r' he with ⟨hr, pre, post, h1, h2⟩ | ⟨hr, h2⟩
  · subst hr
    simp [h1, h2]
    omega
  · subst hr
    simp [h2]

/-- Erasing a key the BST search cannot find leaves the tree bit-for-bit
unchanged and returns `h = false`, `r = false` (claim C8). -/
theorem Tree.erase_notfound (x : α) (t : Tree α) (h : t.contains x = false) :
    t.erase x = some (t, false, false) := by
  induction t with
  | nil => rfl
  | node k c b l r ihl ihr =>
    rcases lt_trichotomy x k with hx | hx | hx
    · have hl : l.contains x = false := by
        simpa [Tree.contains, if_pos hx] using h
      simp [Tree.erase, if_pos hx, ihl hl]
    · subst hx
      simp [Tree.contains, lt_irrefl] at h
    · have hr : r.contains x = false := by
        simpa [Tree.contains, if_neg (lt_asymm hx), if_pos hx] using h
      simp [Tree.erase, if_neg (lt_asymm hx), if_pos hx, ihr hr, lt_asymm hx]

/-- The `default:` branch of `erase`'s `switch` (which throws) is unreachable
whenever every balance factor stored in the tree lies in {-1, 0, +1}
(claim C9). -/
theorem Tree.erase_isSome (x : α) (t : Tree α) (h : t.balsOk) :
    (t.erase x).isSome := by
  induction t with
  | nil => simp [Tree.erase]
  | node k c b l r ihl ihr =>
    obtain ⟨hbv, hbokl, hbokr⟩ := h
    rcases lt_trichotomy x k with hx | hx | hx
    · simp only [Tree.erase, if_pos hx]
      cases hE : l.erase x with
      | none => rw [hE] at ihl; exact absurd (ihl hbokl) (by simp)
      | some resL =>
        simp only []
        split <;> simp
    · subst hx
      simp only [Tree.erase, lt_irrefl, if_false]
      by_cases hc : c ≤ 1
      · rw [if_pos hc]
        cases r with
        | nil => simp
        | node rk rc rb rl rr =>
          cases l with
          | nil => simp
          | node lk lc lb ll lr =>
            rcases hbv with hb | hb | hb <;>
              · simp only [hb]
                norm_num
                split <;> simp
      · rw [if_neg hc]
        simp
    · simp only [Tree.erase, if_neg (lt_asymm hx), if_pos hx]
      cases hE : r.erase x with
      | none => rw [hE] at ihr; exact absurd (ihr hbokr) (by simp)
      | some resR =>
        simp only []
        split <;> simp

theorem Tree.balanced_balsOk (t : Tree α) (h : t.balanced) : t.balsOk := by
  induction t with
  | nil => trivial
  | node k c b l r ihl ihr =>
    obtain ⟨hbb, hd1, hd2, hbl, hbr⟩ := h
    exact ⟨by omega, ihl hbl, ihr hbr⟩

theorem Tree.contains_iff_mem (x : α) (t : Tree α) (ho : t.ordered) :
    t.contains x = true ↔ x ∈ t.getKeys := by
  induction t with
  | nil => simp [Tree.contains, Tree.getKeys]
  | node k c b l r ihl ihr =>
    obtain ⟨hbl, hbr, hol, hor⟩ := ho
    rcases lt_trichotomy x k with hx | hx | hx
    · simp only [Tree.contains, if_pos hx, Tree.getKeys, List.mem_append,
        List.mem_cons, ihl hol]
      constructor
      · exact fun hm => Or.inl hm
      · rintro (hm | rfl | hm)
        · exact hm
        · exact absurd hx (lt_irrefl x)
        · exact absurd (lt_trans hx (hbr x hm)) (lt_irrefl x)
    · subst hx
      simp [Tree.contains, lt_irrefl, Tree.getKeys]
    · simp only [Tree.contains, if_neg (lt_asymm hx), if_pos hx, Tree.getKeys,
        List.mem_append, List.mem_cons, ihr hor]
      constructor
      · exact fun hm => Or.inr (Or.inr hm)
      · rintro (hm | rfl | hm)
        · exact absurd (lt_trans (hbl x hm) hx) (lt_irrefl x)
        · exact absurd hx (lt_irrefl x)
        · exact hm

/-! ### Container-level lemmas -/

theorem avlTree.insert_eq (s : avlTree α) (x : α) :
    s.insert x = (⟨(Tree.insert x s.root).1,
        if (Tree.insert x s.root).2.2 then s.count + 1 else s.count,
        (Tree.insert x s.root).2.1, (Tree.insert x s.root).2.2, s.r⟩,
      (Tree.insert x s.root).2.2) := by
  cases hR : s.root with
  | nil => simp [avlTree.insert, hR, Tree.insert]
  | node k c b l r => simp [avlTree.insert, hR]

theorem avlTree.erase_eq (s : avlTree α) (x : α) :
    s.erase x = (Tree.erase x s.root).map
      (fun res => (⟨res.1, if res.2.2 then s.count - 1 else s.count,
        res.2.1, s.a, res.2.2⟩, res.2.2)) := by
  cases hR : s.root with
  | nil => simp [avlTree.erase, hR, Tree.erase]
  | node k c b l r =>
    simp only [avlTree.erase, hR]
    cases Tree.erase x (Tree.node k c b l r) <;> simp

/-- The global invariant of the set container: every state reachable through
the public operations has a BST-ordered, AVL-balanced tree whose node count
agrees with the stored `count`. -/
theorem avlTree.reachable_inv (s : avlTree α) (h : avlTree.Reachable s) :
    s.root.ordered ∧ s.root.balanced ∧ s.count = s.root.getKeys.length := by
  induction h with
  | init => simp [avlTree.mk0, Tree.ordered, Tree.balanced, Tree.getKeys]
  | ins s x hs ih =>
    obtain ⟨ho, hb, hc⟩ := ih
    rw [avlTree.insert_eq]
    refine ⟨Tree.insert_ordered x s.root ho, (Tree.insert_bal x s.root hb).1, ?_⟩
    have hlen := Tree.insert_len x s.root
    simp only []
    cases hA : (Tree.insert x s.root).2.2 <;> simp [hA] at hlen ⊢ <;> omega
  | del s s' x b hs he ih =>
    obtain ⟨ho, hb, hc⟩ := ih
    rw [avlTree.erase_eq] at he
    cases hE : Tree.erase x s.root with
    | none => rw [hE] at he; exact absurd he (by simp)
    | some res =>
      rw [hE] at he
      simp only [Option.map_some', Option.some.injEq, Prod.mk.injEq] at he
      obtain ⟨rfl, rfl⟩ := he
      obtain ⟨hb', _⟩ := Tree.erase_bal x s.root hb res.1 res.2.1 res.2.2
        (by rw [hE])
      have hlen := Tree.erase_len x s.root res.1 res.2.1 res.2.2 (by rw [hE])
      refine ⟨Tree.erase_ordered x s.root ho res.1 res.2.1 res.2.2 (by rw [hE]),
        hb', ?_⟩
      simp only []
      cases hRf : res.2.2 <;> simp [hRf] at hlen ⊢ <;> omega
  | clr s hs ih =>
    simp [avlTree.clear, Tree.ordered, Tree.balanced, Tree.getKeys]

/-- Inserting the elements of a list one after the other (used to state the
sorted-enumeration property for an arbitrary insertion sequence). -/
def avlTree.insertList (s : avlTree α) : List α → avlTree α
  | [] => s
  | x :: xs => avlTree.insertList (s.insert x).1 xs

theorem avlTree.insertList_reachable (L : List α) :
    ∀ (s : avlTree α), avlTree.Reachable s →
      avlTree.Reachable (avlTree.insertList s L) := by
  induction L with
  | nil => intro s hs; exact hs
  | cons x xs ih =>
    intro s hs
    exact ih (s.insert x).1 (avlTree.Reachable.ins s x hs)

theorem avlTree.insertList_mem (L : List α) (y : α) :
    ∀ (s : avlTree α), y ∈ (avlTree.insertList s L).root.getKeys ↔
      y ∈ L ∨ y ∈ s.root.getKeys := by
  induction L with
  | nil => intro s; simp [avlTree.insertList]
  | cons x xs ih =>
    intro s
    simp only [avlTree.insertList, ih, avlTree.insert_eq, List.mem_cons]
    rw [Tree.insert_mem]
    tauto

/-! ### Iterated insertion and erasure of a single key (claim C6) -/

/-- `eraseStep` is one call of `avlTree::erase` viewed as a state update
(the result subtree; on the unreachable throwing branch the state is kept). -/
def avlTree.eraseStep (s : avlTree α) (x : α) : avlTree α :=
  match s.erase x with
  | some p => p.1
  | none => s

def avlTree.insertIter (x : α) : Nat → avlTree α → avlTree α
  | 0, s => s
  | n + 1, s => ((avlTree.insertIter x n s).insert x).1

def avlTree.eraseIter (x : α) : Nat → avlTree α → avlTree α
  | 0, s => s
  | n + 1, s => (avlTree.eraseIter x n s).eraseStep x

theorem avlTree.insertIter_state (x : α) (n : Nat) (hn : 1 ≤ n) :
    (avlTree.insertIter x n (avlTree.mk0 α)).root = .node x n 0 .nil .nil ∧
      (avlTree.insertIter x n (avlTree.mk0 α)).count = 1 := by
  induction n with
  | zero => omega
  | succ m ih =>
    by_cases hm : 1 ≤ m
    · obtain ⟨ih1, ih2⟩ := ih hm
      simp only [avlTree.insertIter, avlTree.insert_eq, ih1, ih2]
      simp [Tree.insert, lt_irrefl]
    · have hm0 : m = 0 := by omega
      subst hm0
      simp [avlTree.insertIter, avlTree.mk0, avlTree.insert]

theorem Tree.erase_single (x : α) (c : Nat) :
    Tree.erase x (.node x c 0 .nil .nil) =
      (if c ≤ 1 then some (.nil, true, true)
       else some (.node x (c - 1) 0 .nil .nil, false, false)) := by
  by_cases hc : c ≤ 1 <;> simp [Tree.erase, lt_irrefl, hc]

theorem avlTree.eraseIter_state (x : α) (n : Nat) (hn : 1 ≤ n) :
    ∀ k, k ≤ n →
      (k < n →
        (avlTree.eraseIter x k (avlTree.insertIter x n (avlTree.mk0 α))).root =
          .node x (n - k) 0 .nil .nil ∧
        (avlTree.eraseIter x k (avlTree.insertIter x n (avlTree.mk0 α))).count = 1) ∧
      (k = n →
        (avlTree.eraseIter x k (avlTree.insertIter x n (avlTree.mk0 α))).root = .nil ∧
        (avlTree.eraseIter x k (avlTree.insertIter x n (avlTree.mk0 α))).count = 0) := by
  intro k
  induction k with
  | zero =>
    intro hk0
    obtain ⟨h1, h2⟩ := avlTree.insertIter_state x n hn
    exact ⟨fun _ => ⟨by simpa using h1, h2⟩, fun h0 => by omega⟩
  | succ m ih =>
    intro hk
    obtain ⟨ihlt, _⟩ := ih (by omega)
    obtain ⟨ih1, ih2⟩ := ihlt (by omega)
    have hstep : avlTree.eraseIter x (m + 1) (avlTree.insertIter x n (avlTree.mk0 α)) =
        (avlTree.eraseIter x m (avlTree.insertIter x n (avlTree.mk0 α))).eraseStep x := rfl
    rw [hstep]
    unfold avlTree.eraseStep
    rw [avlTree.erase_eq, ih1, Tree.erase_single]
    by_cases hnm : n - m ≤ 1
    · have hmn : m + 1 = n := by omega
      rw [if_pos hnm]
      simp only [Option.map_some']
      constructor
      · intro hlt
        omega
      · intro heq
        refine ⟨?_, ?_⟩ <;> simp [ih2]
    · have hmn : m + 1 < n := by omega
      rw [if_neg hnm]
      simp only [Option.map_some']
      constructor
      · intro hlt
        refine ⟨?_, ?_⟩ <;> simp [ih2] <;> omega
      · intro heq
        omega

/-! ### The map variant (`avlMap.cpp`) -/

/-- The eight rotation counters of the `avlMap` class (`avlMap.cpp` line 621):
`lle, lre, rle, rre` count erase-path rotations, `lli, lri, rli, rri` count
insert-path rotations. -/
structure Counters where
  lle : Nat
  lre : Nat
  rle : Nat
  rre : Nat
  lli : Nat
  lri : Nat
  rli : Nat
  rri : Nat
deriving DecidableEq

def Counters.zero : Counters := ⟨0, 0, 0, 0, 0, 0, 0, 0⟩

def Counters.addLLE (c : Counters) : Counters :=
  ⟨c.lle + 1, c.lre, c.rle, c.rre, c.lli, c.lri, c.rli, c.rri⟩

def Counters.addLRE (c : Counters) : Counters :=
  ⟨c.lle, c.lre + 1, c.rle, c.rre, c.lli, c.lri, c.rli, c.rri⟩

def Counters.addRLE (c : Counters) : Counters :=
  ⟨c.lle, c.lre, c.rle + 1, c.rre, c.lli, c.lri, c.rli, c.rri⟩

def Counters.addRRE (c : Counters) : Counters :=
  ⟨c.lle, c.lre, c.rle, c.rre + 1, c.lli, c.lri, c.rli, c.rri⟩

def Counters.addLLI (c : Counters) : Counters :=
  ⟨c.lle, c.lre, c.rle, c.rre, c.lli + 1, c.lri, c.rli, c.rri⟩

def Counters.addLRI (c : Counters) : Counters :=
  ⟨c.lle, c.lre, c.rle, c.rre, c.lli, c.lri + 1, c.rli, c.rri⟩

def Counters.addRLI (c : Counters) : Counters :=
  ⟨c.lle, c.lre, c.rle, c.rre, c.lli, c.lri, c.rli + 1, c.rri⟩

def Counters.addRRI (c : Counters) : Counters :=
  ⟨c.lle, c.lre, c.rle, c.rre, c.lli, c.lri, c.rli, c.rri + 1⟩

/-- Total number of insertion-path rotations recorded. -/
def Counters.insTotal (c : Counters) : Nat := c.lli + c.lri + c.rli + c.rri

/-- An `avlNode*` of `avlMap.cpp`: key, stored value, balance factor and the
two child pointers. -/
inductive MTree (α β : Type) where
  | nil : MTree α β
  | node : α → β → Int → MTree α β → MTree α β → MTree α β
deriving DecidableEq

variable {β : Type}

/-- Forget the stored values, keeping keys, balance factors and shape (the
`copies` field of the corresponding set node is set to 1).  The map
operations are proved correct by relating them to the structurally identical
set operations through this function. -/
def MTree.strip : MTree α β → Tree α
  | .nil => .nil
  | .node k _ b l r => .node k 1 b l.strip r.strip

/-- `avlMap::avlNode::getKeys` (`avlMap.cpp` lines 603-612). -/
def MTree.getKeys : MTree α β → List α
  | .nil => []
  | .node k _ _ l r => l.getKeys ++ k :: r.getKeys

/-- `avlMap::avlNode::find` (`avlMap.cpp` lines 131-146): iterative search
returning a pointer to the value, embedded as `Option β`. -/
def MTree.find (x : α) : MTree α β → Option β
  | .nil => none
  | .node k v _ l r =>
    if x < k then l.find x
    else if k < x then r.find x
    else some v

/-- `avlMap::avlNode::contains` (`avlMap.cpp` lines 108-115): defined through
`find`. -/
def MTree.contains (x : α) (m : MTree α β) : Bool := (m.find x).isSome

/-- Insert-path rebalancing of `avlMap::avlNode::insert` after the left
branch grew and `p->bal` was `-1` (`avlMap.cpp` lines 185-214), including
the `lli`/`lri` counter increments. -/
def MTree.rebalanceInsL (k : α) (v : β) (l r : MTree α β) (cnt : Counters) :
    MTree α β × Counters :=
  match l with
  | .nil => (.node k v (-1) .nil r, cnt)
  | .node k1 v1 b1 l1 r1 =>
    if b1 = -1 then
      (.node k1 v1 0 l1 (.node k v 0 r1 r), cnt.addLLI)
    else
      match r1 with
      | .nil => (.node k v (-1) (.node k1 v1 b1 l1 .nil) r, cnt)
      | .node k2 v2 b2 l2 r2 =>
        (.node k2 v2 0 (.node k1 v1 (if b2 = 1 then -1 else 0) l1 l2)
          (.node k v (if b2 = -1 then 1 else 0) r2 r), cnt.addLRI)

/-- Insert-path rebalancing of `avlMap::avlNode::insert` after the right
branch grew and `p->bal` was `1` (`avlMap.cpp` lines 233-262), including the
`rri`/`rli` counter increments. -/
def MTree.rebalanceInsR (k : α) (v : β) (l r : MTree α β) (cnt : Counters) :
    MTree α β × Counters :=
  match r with
  | .nil => (.node k v 1 l .nil, cnt)
  | .node k1 v1 b1 l1 r1 =>
    if b1 = 1 then
      (.node k1 v1 0 (.node k v 0 l l1) r1, cnt.addRRI)
    else
      match l1 with
      | .nil => (.node k v 1 l (.node k1 v1 b1 .nil r1), cnt)
      | .node k2 v2 b2 l2 r2 =>
        (.node k2 v2 0 (.node k v (if b2 = 1 then -1 else 0) l l2)
          (.node k1 v1 (if b2 = -1 then 1 else 0) r2 r1), cnt.addRLI)

/-- `avlMap::avlNode::insert` (`avlMap.cpp` lines 165-271).  The equal-key
branch overwrites the value and sets `h = false`, `a = true`; a new node sets
`a = false`. -/
def MTree.insert (x : α) (y : β) : MTree α β → Counters →
    MTree α β × Bool × Bool × Counters
  | .nil, cnt => (.node x y 0 .nil .nil, true, false, cnt)
  | .node k v b l r, cnt =>
    if x < k then
      let res := MTree.insert x y l cnt
      if res.2.1 then
        if b = 1 then (.node k v 0 res.1 r, false, res.2.2.1, res.2.2.2)
        else if b = 0 then (.node k v (-1) res.1 r, true, res.2.2.1, res.2.2.2)
        else if b = -1 then
          let rb := MTree.rebalanceInsL k v res.1 r res.2.2.2
          (rb.1, false, res.2.2.1, rb.2)
        else (.node k v b res.1 r, true, res.2.2.1, res.2.2.2)
      else (.node k v b res.1 r, false, res.2.2.1, res.2.2.2)
    else if k < x then
      let res := MTree.insert x y r cnt
      if res.2.1 then
        if b = -1 then (.node k v 0 l res.1, false, res.2.2.1, res.2.2.2)
        else if b = 0 then (.node k v 1 l res.1, true, res.2.2.1, res.2.2.2)
        else if b = 1 then
          let rb := MTree.rebalanceInsR k v l res.1 res.2.2.2
          (rb.1, false, res.2.2.1, rb.2)
        else (.node k v b l res.1, true, res.2.2.1, res.2.2.2)
      else (.node k v b l res.1, false, res.2.2.1, res.2.2.2)
    else (.node k y b l r, false, true, cnt)

/-- `avlMap::avlNode::balanceLeft` (`avlMap.cpp` lines 288-338), with the
`rre`/`rle` erase-path counter increments. -/
def MTree.balanceLeft : MTree α β → Counters → MTree α β × Bool × Counters
  | .nil, cnt => (.nil, true, cnt)
  | .node k v b l r, cnt =>
    if b = -1 then (.node k v 0 l r, true, cnt)
    else if b = 0 then (.node k v 1 l r, false, cnt)
    else if b = 1 then
      match r with
      | .nil => (.node k v b l .nil, true, cnt)
      | .node k1 v1 b1 l1 r1 =>
        if 0 ≤ b1 then
          if b1 = 0 then
            (.node k1 v1 (-1) (.node k v 1 l l1) r1, false, cnt.addRRE)
          else
            (.node k1 v1 0 (.node k v 0 l l1) r1, true, cnt.addRRE)
        else
          match l1 with
          | .nil => (.node k v b l (.node k1 v1 b1 .nil r1), true, cnt)
          | .node k2 v2 b2 l2 r2 =>
            (.node k2 v2 0 (.node k v (if b2 = 1 then -1 else 0) l l2)
              (.node k1 v1 (if b2 = -1 then 1 else 0) r2 r1), true, cnt.addRLE)
    else (.node k v b l r, true, cnt)

/-- `avlMap::avlNode::balanceRight` (`avlMap.cpp` lines 355-405), with the
`lle`/`lre` erase-path counter increments. -/
def MTree.balanceRight : MTree α β → Counters → MTree α β × Bool × Counters
  | .nil, cnt => (.nil, true, cnt)
  | .node k v b l r, cnt =>
    if b = 1 then (.node k v 0 l r, true, cnt)
    else if b = 0 then (.node k v (-1) l r, false, cnt)
    else if b = -1 then
      match l with
      | .nil => (.node k v b .nil r, true, cnt)
      | .node k1 v1 b1 l1 r1 =>
        if b1 ≤ 0 then
          if b1 = 0 then
            (.node k1 v1 1 l1 (.node k v (-1) r1 r), false, cnt.addLLE)
          else
            (.node k1 v1 0 l1 (.node k v 0 r1 r), true, cnt.addLLE)
        else
          match r1 with
          | .nil => (.node k v b (.node k1 v1 b1 l1 .nil) r, true, cnt)
          | .node k2 v2 b2 l2 r2 =>
            (.node k2 v2 0 (.node k1 v1 (if b2 = 1 then -1 else 0) l1 l2)
              (.node k v (if b2 = -1 then 1 else 0) r2 r), true, cnt.addLRE)
    else (.node k v b l r, true, cnt)

/-- `avlMap::avlNode::eraseRight` (`avlMap.cpp` lines 458-473). -/
def MTree.eraseRight (k : α) (v : β) (b : Int) (l : MTree α β) :
    MTree α β → Counters → MTree α β × Bool × α × β × Counters
  | .nil, cnt => (l, true, k, v, cnt)
  | .node rk rv rb rl rr, cnt =>
    let res := MTree.eraseRight rk rv rb rl rr cnt
    if res.2.1 then
      let res2 := MTree.balanceRight (.node k v b l res.1) res.2.2.2.2
      (res2.1, res2.2.1, res.2.2.1, res.2.2.2.1, res2.2.2)
    else (.node k v b l res.1, false, res.2.2.1, res.2.2.2.1, res.2.2.2.2)

/-- `avlMap::avlNode::eraseLeft` (`avlMap.cpp` lines 424-439). -/
def MTree.eraseLeft (k : α) (v : β) (b : Int) (r : MTree α β) :
    MTree α β → Counters → MTree α β × Bool × α × β × Counters
  | .nil, cnt => (r, true, k, v, cnt)
  | .node lk lv lb ll lr, cnt =>
    let res := MTree.eraseLeft lk lv lb lr ll cnt
    if res.2.1 then
      let res2 := MTree.balanceLeft (.node k v b res.1 r) res.2.2.2.2
      (res2.1, res2.2.1, res.2.2.1, res.2.2.2.1, res2.2.2)
    else (.node k v b res.1 r, false, res.2.2.1, res.2.2.2.1, res.2.2.2.2)

/-- `avlMap::avlNode::erase` (`avlMap.cpp` lines 491-549).  Unlike the set
variant there is no `copies` test: a located key is always removed.  `none`
models the throwing `default:` branch. -/
def MTree.erase (x : α) : MTree α β → Counters →
    Option (MTree α β × Bool × Bool × Counters)
  | .nil, cnt => some (.nil, false, false, cnt)
  | .node k v b l r, cnt =>
    if x < k then
      match MTree.erase x l cnt with
      | none => none
      | some res =>
        if res.2.1 then
          let res2 := MTree.balanceLeft (.node k v b res.1 r) res.2.2.2
          some (res2.1, res2.2.1, res.2.2.1, res2.2.2)
        else some (.node k v b res.1 r, false, res.2.2.1, res.2.2.2)
    else if k < x then
      match MTree.erase x r cnt with
      | none => none
      | some res =>
        if res.2.1 then
          let res2 := MTree.balanceRight (.node k v b l res.1) res.2.2.2
          some (res2.1, res2.2.1, res.2.2.1, res2.2.2)
        else some (.node k v b l res.1, false, res.2.2.1, res.2.2.2)
    else
      match r with
      | .nil => some (l, true, true, cnt)
      | .node rk rv rb rl rr =>
        match l with
        | .nil => some (.node rk rv rb rl rr, true, true, cnt)
        | .node lk lv lb ll lr =>
          if b = 0 ∨ b = -1 then
            let res := MTree.eraseRight lk lv lb ll lr cnt
            let p : MTree α β :=
              .node res.2.2.1 res.2.2.2.1 b res.1 (.node rk rv rb rl rr)
            if res.2.1 then
              let res2 := MTree.balanceLeft p res.2.2.2.2
              some (res2.1, res2.2.1, true, res2.2.2)
            else some (p, false, true, res.2.2.2.2)
          else if b = 1 then
            let res := MTree.eraseLeft rk rv rb rr rl cnt
            let p : MTree α β :=
              .node res.2.2.1 res.2.2.2.1 b (.node lk lv lb ll lr) res.1
            if res.2.1 then
              let res2 := MTree.balanceRight p res.2.2.2.2
              some (res2.1, res2.2.1, true, res2.2.2)
            else some (p, false, true, res.2.2.2.2)
          else none

/-- Helper describing the entire effect of a duplicate-key insertion into the
map: only the value stored at the node on the search path for `x` is
replaced. -/
def MTree.setValue (x : α) (y : β) : MTree α β → MTree α β
  | .nil => .nil
  | .node k v b l r =>
    if x < k then .node k v b (MTree.setValue x y l) r
    else if k < x then .node k v b l (MTree.setValue x y r)
    else .node k y b l r

/-- The `avlMap` container class (`avlMap.cpp` lines 67-767): root pointer,
node count, the `h`, `a`, `r` booleans and the rotation counters. -/
structure avlMap (α β : Type) where
  root : MTree α β
  count : Nat
  h : Bool
  a : Bool
  r : Bool
  cnt : Counters
deriving DecidableEq

/-- The `avlMap()` constructor: empty root, all counters zero. -/
def avlMap.mk0 (α β : Type) : avlMap α β :=
  ⟨.nil, 0, false, false, false, Counters.zero⟩

/-- `avlMap::insert` (`avlMap.cpp` lines 695-707): sets `h = false`,
`a = false`, delegates to the node-level insert (or creates the root), bumps
`count` when `a` stayed false, and returns `a` (true means the value of an
existing key was updated). -/
def avlMap.insert (m : avlMap α β) (x : α) (y : β) : avlMap α β × Bool :=
  match m.root with
  | .nil => (⟨.node x y 0 .nil .nil, m.count + 1, true, false, m.r, m.cnt⟩, false)
  | .node k v b l r =>
    let res := MTree.insert x y (.node k v b l r) m.cnt
    (⟨res.1, if res.2.2.1 then m.count else m.count + 1, res.2.1, res.2.2.1,
      m.r, res.2.2.2⟩, res.2.2.1)

/-- `avlMap::erase` (`avlMap.cpp` lines 720-729). -/
def avlMap.erase (m : avlMap α β) (x : α) : Option (avlMap α β × Bool) :=
  match m.root with
  | .nil => some (⟨.nil, m.count, false, m.a, false, m.cnt⟩, false)
  | .node k v b l r =>
    match MTree.erase x (.node k v b l r) m.cnt with
    | none => none
    | some res =>
      some (⟨res.1, if res.2.2.1 then m.count - 1 else m.count, res.2.1, m.a,
        res.2.2.1, res.2.2.2⟩, res.2.2.1)

/-- `avlMap::contains` (`avlMap.cpp` lines 658-664). -/
def avlMap.contains (m : avlMap α β) (x : α) : Bool :=
  MTree.contains x m.root

/-- `avlMap::find` (`avlMap.cpp` lines 675-681). -/
def avlMap.find (m : avlMap α β) (x : α) : Option β :=
  MTree.find x m.root

/-- `avlMap::size` (`avlMap.cpp` lines 639-641). -/
def avlMap.size (m : avlMap α β) : Nat := m.count

/-- `avlMap::clear` (`avlMap.cpp` lines 745-751). -/
def avlMap.clear (m : avlMap α β) : avlMap α β :=
  ⟨.nil, 0, m.h, m.a, m.r, m.cnt⟩

/-- `avlMap::getKeys` (`avlMap.cpp` lines 761-766). -/
def avlMap.getKeys (m : avlMap α β) : List α :=
  MTree.getKeys m.root

/-- Map container states reachable through the public mutating operations. -/
inductive avlMap.Reachable : avlMap α β → Prop where
  | init : avlMap.Reachable (avlMap.mk0 α β)
  | ins (m : avlMap α β) (x : α) (y : β) : avlMap.Reachable m →
      avlMap.Reachable (m.insert x y).1
  | del (m m' : avlMap α β) (x : α) (b : Bool) : avlMap.Reachable m →
      m.erase x = some (m', b) → avlMap.Reachable m'
  | clr (m : avlMap α β) : avlMap.Reachable m → avlMap.Reachable m.clear

/-! ### The map operations simulate the set operations through `strip` -/

theorem MTree.strip_getKeys (m : MTree α β) : m.strip.getKeys = m.getKeys := by
  induction m with
  | nil => rfl
  | node k v b l r ihl ihr => simp [MTree.strip, MTree.getKeys, Tree.getKeys, ihl, ihr]

theorem MTree.contains_strip (x : α) (m : MTree α β) :
    Tree.contains x m.strip = MTree.contains x m := by
  induction m with
  | nil => rfl
  | node k v b l r ihl ihr =>
    simp only [MTree.strip, Tree.contains, MTree.contains, MTree.find]
    split_ifs with h1 h2
    · exact ihl
    · exact ihr
    · rfl

theorem MTree.balanceLeft_strip (m : MTree α β) (cnt : Counters) :
    Tree.balanceLeft m.strip =
      ((MTree.balanceLeft m cnt).1.strip, (MTree.balanceLeft m cnt).2.1) := by
  cases m with
  | nil => rfl
  | node k v b l r =>
    cases r with
    | nil =>
      simp only [MTree.strip, MTree.balanceLeft, Tree.balanceLeft]
      split_ifs <;> simp [MTree.strip]
    | node k1 v1 b1 l1 r1 =>
      cases l1 with
      | nil =>
        simp only [MTree.strip, MTree.balanceLeft, Tree.balanceLeft]
        split_ifs <;> simp [MTree.strip]
      | node k2 v2 b2 l2 r2 =>
        simp only [MTree.strip, MTree.balanceLeft, Tree.balanceLeft]
        split_ifs <;> simp [MTree.strip]

theorem MTree.balanceRight_strip (m : MTree α β) (cnt : Counters) :
    Tree.balanceRight m.strip =
      ((MTree.balanceRight m cnt).1.strip, (MTree.balanceRight m cnt).2.1) := by
  cases m with
  | nil => rfl
  | node k v b l r =>
    cases l with
    | nil =>
      simp only [MTree.strip, MTree.balanceRight, Tree.balanceRight]
      split_ifs <;> simp [MTree.strip]
    | node k1 v1 b1 l1 r1 =>
      cases r1 with
      | nil =>
        simp only [MTree.strip, MTree.balanceRight, Tree.balanceRight]
        split_ifs <;> simp [MTree.strip]
      | node k2 v2 b2 l2 r2 =>
        simp only [MTree.strip, MTree.balanceRight, Tree.balanceRight]
        split_ifs <;> simp [MTree.strip]

theorem MTree.eraseRight_strip (r : MTree α β) :
    ∀ (k : α) (v : β) (b : Int) (l : MTree α β) (cnt : Counters),
      Tree.eraseRight k 1 b l.strip r.strip =
        ((MTree.eraseRight k v b l r cnt).1.strip,
          (MTree.eraseRight k v b l r cnt).2.1,
          (MTree.eraseRight k v b l r cnt).2.2.1, 1) := by
  induction r with
  | nil => intro k v b l cnt; rfl
  | node rk rv rb rl rr ihl ihr =>
    intro k v b l cnt
    simp only [MTree.strip, Tree.eraseRight, MTree.eraseRight]
    rw [ihr rk rv rb rl cnt]
    cases hB : (MTree.eraseRight rk rv rb rl rr cnt).2.1 with
    | false => simp [hB, MTree.strip]
    | true =>
      simp only [hB, if_true]
      have hcomm := MTree.balanceRight_strip
        (.node k v b l (MTree.eraseRight rk rv rb rl rr cnt).1)
        (MTree.eraseRight rk rv rb rl rr cnt).2.2.2.2
      simp only [MTree.strip] at hcomm
      simp [hcomm]

theorem MTree.eraseLeft_strip (l : MTree α β) :
    ∀ (k : α) (v : β) (b : Int) (r : MTree α β) (cnt : Counters),
      Tree.eraseLeft k 1 b r.strip l.strip =
        ((MTree.eraseLeft k v b r l cnt).1.strip,
          (MTree.eraseLeft k v b r l cnt).2.1,
          (MTree.eraseLeft k v b r l cnt).2.2.1, 1) := by
  induction l with
  | nil => intro k v b r cnt; rfl
  | node lk lv lb ll lr ihl ihr =>
    intro k v b r cnt
    simp only [MTree.strip, Tree.eraseLeft, MTree.eraseLeft]
    rw [ihl lk lv lb lr cnt]
    cases hB : (MTree.eraseLeft lk lv lb lr ll cnt).2.1 with
    | false => simp [hB, MTree.strip]
    | true =>
      simp only [hB, if_true]
      have hcomm := MTree.balanceLeft_strip
        (.node k v b (MTree.eraseLeft lk lv lb lr ll cnt).1 r)
        (MTree.eraseLeft lk lv lb lr ll cnt).2.2.2.2
      simp only [MTree.strip] at hcomm
      simp [hcomm]

theorem MTree.erase_strip (x : α) (m : MTree α β) (cnt : Counters) :
    Tree.erase x m.strip = (MTree.erase x m cnt).map
      (fun z => (z.1.strip, z.2.1, z.2.2.1)) := by
  induction m with
  | nil => rfl
  | node k v b l r ihl ihr =>
    rcases lt_trichotomy x k with hx | hx | hx
    · simp only [MTree.strip, Tree.erase, MTree.erase, if_pos hx]
      rw [ihl]
      cases hE : MTree.erase x l cnt with
      | none => simp
      | some res =>
        simp only [Option.map_some']
        cases hB : res.2.1 with
        | false => simp [hB, MTree.strip]
        | true =>
          have hcomm := MTree.balanceLeft_strip (.node k v b res.1 r) res.2.2.2
          simp only [MTree.strip] at hcomm
          simp [hB, hcomm]
    · subst hx
      simp only [MTree.strip, Tree.erase, MTree.erase, lt_irrefl, if_false]
      cases r with
      | nil =>
        cases l <;> simp [MTree.strip]
      | node rk rv rb rl rr =>
        cases l with
        | nil => simp [MTree.strip]
        | node lk lv lb ll lr =>
          simp only [MTree.strip]
          by_cases hb0 : b = 0 ∨ b = -1
          · rw [if_pos hb0, if_pos hb0]
            simp only [le_refl, if_true]
            rw [MTree.eraseRight_strip lr lk lv lb ll cnt]
            cases hB : (MTree.eraseRight lk lv lb ll lr cnt).2.1 with
            | false => simp [hB, MTree.strip]
            | true =>
              have hcomm := MTree.balanceLeft_strip
                (.node (MTree.eraseRight lk lv lb ll lr cnt).2.2.1
                  (MTree.eraseRight lk lv lb ll lr cnt).2.2.2.1 b
                  (MTree.eraseRight lk lv lb ll lr cnt).1 (.node rk rv rb rl rr))
                (MTree.eraseRight lk lv lb ll lr cnt).2.2.2.2
              simp only [MTree.strip] at hcomm
              simp [hB, hcomm]
          · rw [if_neg hb0, if_neg hb0]
            by_cases hb1 : b = 1
            · rw [if_pos hb1, if_pos hb1]
              simp only [le_refl, if_true]
              rw [MTree.eraseLeft_strip rl rk rv rb rr cnt]
              cases hB : (MTree.eraseLeft rk rv rb rr rl cnt).2.1 with
              | false => simp [hB, MTree.strip]
              | true =>
                have hcomm := MTree.balanceRight_strip
                  (.node (MTree.eraseLeft rk rv rb rr rl cnt).2.2.1
                    (MTree.eraseLeft rk rv rb rr rl cnt).2.2.2.1 b
                    (.node lk lv lb ll lr) (MTree.eraseLeft rk rv rb rr rl cnt).1)
                  (MTree.eraseLeft rk rv rb rr rl cnt).2.2.2.2
                simp only [MTree.strip] at hcomm
                simp [hB, hcomm]
            · rw [if_neg hb1, if_neg hb1]
              simp
    · simp only [MTree.strip, Tree.erase, MTree.erase, if_neg (lt_asymm hx),
        if_pos hx]
      rw [ihr]
      cases hE : MTree.erase x r cnt with
      | none => simp
      | some res =>
        simp only [Option.map_some']
        cases hB : res.2.1 with
        | false => simp [hB, MTree.strip]
        | true =>
          have hcomm := MTree.balanceRight_strip (.node k v b l res.1) res.2.2.2
          simp only [MTree.strip] at hcomm
          simp [hB, hcomm]

theorem MTree.contains_node (x k : α) (v : β) (b : Int) (l r : MTree α β) :
    MTree.contains x (.node k v b l r) =
      (if x < k then MTree.contains x l
       else if k < x then MTree.contains x r else true) := by
  simp only [MTree.contains, MTree.find]
  split_ifs <;> rfl

theorem MTree.insert_hA (x : α) (y : β) (m : MTree α β) (cnt : Counters) :
    (MTree.insert x y m cnt).2.2.1 = true → (MTree.insert x y m cnt).2.1 = false := by
  induction m with
  | nil => simp [MTree.insert]
  | node k v b l r ihl ihr =>
    rcases lt_trichotomy x k with hx | hx | hx
    · simp only [MTree.insert, if_pos hx]
      cases hB : (MTree.insert x y l cnt).2.1 with
      | false => simp [hB]
      | true =>
        intro ha
        simp only [hB, if_true] at ha
        split_ifs at ha <;> simp_all
    · subst hx
      simp [MTree.insert, lt_irrefl]
    · simp only [MTree.insert, if_neg (lt_asymm hx), if_pos hx]
      cases hB : (MTree.insert x y r cnt).2.1 with
      | false => simp [hB]
      | true =>
        intro ha
        simp only [hB, if_true] at ha
        split_ifs at ha <;> simp_all

theorem MTree.insert_cntEq (x : α) (y : β) (m : MTree α β) (cnt : Counters) :
    (MTree.insert x y m cnt).2.1 = true → (MTree.insert x y m cnt).2.2.2 = cnt := by
  induction m with
  | nil => simp [MTree.insert]
  | node k v b l r ihl ihr =>
    rcases lt_trichotomy x k with hx | hx | hx
    · simp only [MTree.insert, if_pos hx]
      cases hB : (MTree.insert x y l cnt).2.1 with
      | false => simp [hB]
      | true =>
        intro hh
        simp only [hB, if_true] at hh ⊢
        split_ifs at hh ⊢ <;> simp_all [ihl hB]
    · subst hx
      simp [MTree.insert, lt_irrefl]
    · simp only [MTree.insert, if_neg (lt_asymm hx), if_pos hx]
      cases hB : (MTree.insert x y r cnt).2.1 with
      | false => simp [hB]
      | true =>
        intro hh
        simp only [hB, if_true] at hh ⊢
        split_ifs at hh ⊢ <;> simp_all [ihr hB]

theorem MTree.rebalanceInsL_strip (k : α) (v : β) (l r : MTree α β) (cnt : Counters) :
    (MTree.rebalanceInsL k v l r cnt).1.strip =
      Tree.rebalanceInsL k 1 l.strip r.strip := by
  cases l with
  | nil => rfl
  | node k1 v1 b1 l1 r1 =>
    cases r1 with
    | nil =>
      simp only [MTree.rebalanceInsL, Tree.rebalanceInsL, MTree.strip]
      split_ifs <;> simp [MTree.strip]
    | node k2 v2 b2 l2 r2 =>
      simp only [MTree.rebalanceInsL, Tree.rebalanceInsL, MTree.strip]
      split_ifs <;> simp [MTree.strip]

theorem MTree.rebalanceInsR_strip (k : α) (v : β) (l r : MTree α β) (cnt : Counters) :
    (MTree.rebalanceInsR k v l r cnt).1.strip =
      Tree.rebalanceInsR k 1 l.strip r.strip := by
  cases r with
  | nil => rfl
  | node k1 v1 b1 l1 r1 =>
    cases l1 with
    | nil =>
      simp only [MTree.rebalanceInsR, Tree.rebalanceInsR, MTree.strip]
      split_ifs <;> simp [MTree.strip]
    | node k2 v2 b2 l2 r2 =>
      simp only [MTree.rebalanceInsR, Tree.rebalanceInsR, MTree.strip]
      split_ifs <;> simp [MTree.strip]

theorem MTree.insert_strip (x : α) (y : β) (m : MTree α β) (cnt : Counters) :
    (Tree.insert x m.strip).2.1 = (MTree.insert x y m cnt).2.1 ∧
    (Tree.insert x m.strip).2.2 = !(MTree.insert x y m cnt).2.2.1 ∧
    (MTree.insert x y m cnt).1.strip =
      (if (MTree.insert x y m cnt).2.2.1 then m.strip else (Tree.insert x m.strip).1) := by
  induction m with
  | nil => simp [MTree.insert, Tree.insert, MTree.strip]
  | node k v b l r ihl ihr =>
    rcases lt_trichotomy x k with hx | hx | hx
    · obtain ⟨ih1, ih2, ih3⟩ := ihl
      simp only [MTree.strip, MTree.insert, Tree.insert, if_pos hx]
      cases hB : (MTree.insert x y l cnt).2.1 with
      | false =>
        rw [hB] at ih1
        simp only [ih1, hB, Bool.false_eq_true, if_false]
        refine ⟨by simp, ih2, ?_⟩
        cases hA : (MTree.insert x y l cnt).2.2.1 with
        | false =>
          simp only [hA, Bool.false_eq_true, if_false] at ih3 ⊢
          simp [MTree.strip, ih3]
        | true =>
          simp only [hA, if_true] at ih3 ⊢
          simp [MTree.strip, ih3]
      | true =>
        have hA : (MTree.insert x y l cnt).2.2.1 = false := by
          cases hA2 : (MTree.insert x y l cnt).2.2.1 with
          | false => rfl
          | true => exact absurd hB (by rw [MTree.insert_hA x y l cnt hA2]; simp)
        rw [hB] at ih1
        rw [hA] at ih3
        simp only [Bool.false_eq_true, if_false] at ih3
        simp only [ih1, hB, if_true, hA, Bool.false_eq_true, if_false]
        split_ifs with h1 h2 h3 <;>
          simp_all [MTree.strip, MTree.rebalanceInsL_strip]
    · subst hx
      simp [MTree.insert, Tree.insert, lt_irrefl, MTree.strip]
    · obtain ⟨ih1, ih2, ih3⟩ := ihr
      simp only [MTree.strip, MTree.insert, Tree.insert, if_neg (lt_asymm hx),
        if_pos hx]
      cases hB : (MTree.insert x y r cnt).2.1 with
      | false =>
        rw [hB] at ih1
        simp only [ih1, hB, Bool.false_eq_true, if_false]
        refine ⟨by simp, ih2, ?_⟩
        cases hA : (MTree.insert x y r cnt).2.2.1 with
        | false =>
          simp only [hA, Bool.false_eq_true, if_false] at ih3 ⊢
          simp [MTree.strip, ih3]
        | true =>
          simp only [hA, if_true] at ih3 ⊢
          simp [MTree.strip, ih3]
      | true =>
        have hA : (MTree.insert x y r cnt).2.2.1 = false := by
          cases hA2 : (MTree.insert x y r cnt).2.2.1 with
          | false => rfl
          | true => exact absurd hB (by rw [MTree.insert_hA x y r cnt hA2]; simp)
        rw [hB] at ih1
        rw [hA] at ih3
        simp only [Bool.false_eq_true, if_false] at ih3
        simp only [ih1, hB, if_true, hA, Bool.false_eq_true, if_false]
        split_ifs with h1 h2 h3 <;>
          simp_all [MTree.strip, MTree.rebalanceInsR_strip]

theorem MTree.setValue_strip (x : α) (y : β) (m : MTree α β) :
    (MTree.setValue x y m).strip = m.strip := by
  induction m with
  | nil => rfl
  | node k v b l r ihl ihr =>
    simp only [MTree.setValue]
    split_ifs <;> simp [MTree.strip, ihl, ihr]

theorem MTree.insert_dupM (x : α) (y : β) (m : MTree α β) (cnt : Counters)
    (h : MTree.contains x m = true) :
    MTree.insert x y m cnt = (MTree.setValue x y m, false, true, cnt) := by
  induction m with
  | nil => simp [MTree.contains, MTree.find] at h
  | node k v b l r ihl ihr =>
    rw [MTree.contains_node] at h
    rcases lt_trichotomy x k with hx | hx | hx
    · rw [if_pos hx] at h
      simp [MTree.insert, if_pos hx, ihl h, MTree.setValue]
    · subst hx
      simp [MTree.insert, lt_irrefl, MTree.setValue]
    · rw [if_neg (lt_asymm hx), if_pos hx] at h
      simp [MTree.insert, if_neg (lt_asymm hx), if_pos hx, ihr h, MTree.setValue,
        lt_asymm hx]

/-- Every balance factor stored in the map lies in {-1, 0, +1}. -/
def MTree.balsOk : MTree α β → Prop
  | .nil => True
  | .node _ _ b l r => (b = -1 ∨ b = 0 ∨ b = 1) ∧ l.balsOk ∧ r.balsOk

theorem MTree.balsOk_strip (m : MTree α β) : m.strip.balsOk ↔ m.balsOk := by
  induction m with
  | nil => simp [MTree.strip, Tree.balsOk, MTree.balsOk]
  | node k v b l r ihl ihr =>
    simp [MTree.strip, Tree.balsOk, MTree.balsOk, ihl, ihr]

/-- The throwing `default:` branch of the map's `erase` is unreachable when
every stored balance factor lies in {-1, 0, +1}. -/
theorem MTree.erase_isSomeM (x : α) (m : MTree α β) (cnt : Counters)
    (h : m.balsOk) : (MTree.erase x m cnt).isSome := by
  have hs := Tree.erase_isSome x m.strip ((MTree.balsOk_strip m).2 h)
  rw [MTree.erase_strip x m cnt] at hs
  simpa using hs

theorem avlMap.insert_eqM (m : avlMap α β) (x : α) (y : β) :
    m.insert x y = (⟨(MTree.insert x y m.root m.cnt).1,
        if (MTree.insert x y m.root m.cnt).2.2.1 then m.count else m.count + 1,
        (MTree.insert x y m.root m.cnt).2.1,
        (MTree.insert x y m.root m.cnt).2.2.1, m.r,
        (MTree.insert x y m.root m.cnt).2.2.2⟩,
      (MTree.insert x y m.root m.cnt).2.2.1) := by
  cases hR : m.root with
  | nil => simp [avlMap.insert, hR, MTree.insert]
  | node k v b l r => simp [avlMap.insert, hR]

theorem avlMap.erase_eqM (m : avlMap α β) (x : α) :
    m.erase x = (MTree.erase x m.root m.cnt).map
      (fun res => (⟨res.1, if res.2.2.1 then m.count - 1 else m.count, res.2.1,
        m.a, res.2.2.1, res.2.2.2⟩, res.2.2.1)) := by
  cases hR : m.root with
  | nil => simp [avlMap.erase, hR, MTree.erase]
  | node k v b l r =>
    simp only [avlMap.erase, hR]
    cases MTree.erase x (MTree.node k v b l r) m.cnt <;> simp

/-- The global invariant of the map container: the key/balance skeleton of
every reachable state is BST-ordered and AVL-balanced, and `count` agrees
with the number of nodes. -/
theorem avlMap.reachable_invM (m : avlMap α β) (h : avlMap.Reachable m) :
    m.root.strip.ordered ∧ m.root.strip.balanced ∧
      m.count = m.root.getKeys.length := by
  induction h with
  | init => simp [avlMap.mk0, MTree.strip, Tree.ordered, Tree.balanced, MTree.getKeys]
  | ins m x y hm ih =>
    obtain ⟨ho, hb, hc⟩ := ih
    rw [avlMap.insert_eqM]
    obtain ⟨hs1, hs2, hs3⟩ := MTree.insert_strip x y m.root m.cnt
    simp only []
    cases hA : (MTree.insert x y m.root m.cnt).2.2.1 with
    | true =>
      rw [hA] at hs3
      simp only [if_true] at hs3
      refine ⟨by rw [hs3]; exact ho, by rw [hs3]; exact hb, ?_⟩
      have : (MTree.insert x y m.root m.cnt).1.getKeys = m.root.getKeys := by
        rw [← MTree.strip_getKeys, hs3, MTree.strip_getKeys]
      simp [this, hc]
    | false =>
      rw [hA] at hs3
      simp only [Bool.false_eq_true, if_false] at hs3
      refine ⟨by rw [hs3]; exact Tree.insert_ordered x m.root.strip ho,
        by rw [hs3]; exact (Tree.insert_bal x m.root.strip hb).1, ?_⟩
      have hlen := Tree.insert_len x m.root.strip
      rw [hA] at hs2
      simp only [Bool.not_false] at hs2
      rw [hs2] at hlen
      have : (MTree.insert x y m.root m.cnt).1.getKeys =
          (Tree.insert x m.root.strip).1.getKeys := by
        rw [← MTree.strip_getKeys, hs3]
      simp only [this, hlen, if_true, MTree.strip_getKeys]
      rw [MTree.strip_getKeys] at hlen
      simp [hlen, hc, MTree.strip_getKeys]
  | del m m' x b hm he ih =>
    obtain ⟨ho, hb, hc⟩ := ih
    rw [avlMap.erase_eqM] at he
    cases hE : MTree.erase x m.root m.cnt with
    | none => rw [hE] at he; exact absurd he (by simp)
    | some res =>
      rw [hE] at he
      simp only [Option.map_some', Option.some.injEq, Prod.mk.injEq] at he
      obtain ⟨rfl, rfl⟩ := he
      have hset : Tree.erase x m.root.strip =
          some (res.1.strip, res.2.1, res.2.2.1) := by
        rw [MTree.erase_strip x m.root m.cnt, hE]
        rfl
      obtain ⟨hb', _⟩ := Tree.erase_bal x m.root.strip hb res.1.strip res.2.1
        res.2.2.1 hset
      have hlen := Tree.erase_len x m.root.strip res.1.strip res.2.1
        res.2.2.1 hset
      refine ⟨Tree.erase_ordered x m.root.strip ho res.1.strip res.2.1
        res.2.2.1 hset, hb', ?_⟩
      rw [MTree.strip_getKeys, MTree.strip_getKeys] at hlen
      simp only []
      cases hRf : res.2.2.1 <;> simp [hRf] at hlen ⊢ <;> omega
  | clr m hm ih =>
    simp [avlMap.clear, MTree.strip, Tree.ordered, Tree.balanced, MTree.getKeys]

theorem MTree.find_setValue (x : α) (y : β) (m : MTree α β)
    (h : MTree.contains x m = true) :
    MTree.find x (MTree.setValue x y m) = some y := by
  induction m with
  | nil => simp [MTree.contains, MTree.find] at h
  | node k v b l r ihl ihr =>
    rw [MTree.contains_node] at h
    rcases lt_trichotomy x k with hx | hx | hx
    · rw [if_pos hx] at h
      simp [MTree.setValue, MTree.find, if_pos hx, ihl h]
    · subst hx
      simp [MTree.setValue, MTree.find, lt_irrefl]
    · rw [if_neg (lt_asymm hx), if_pos hx] at h
      simp [MTree.setValue, MTree.find, if_neg (lt_asymm hx), if_pos hx, ihr h,
        lt_asymm hx]

/-! ## The claims -/

/-- C1: After every public operation of the set and map containers (insert,
erase, clear) returns, every node n of the tree satisfies BST order (every
key in n.left is less than n.key, which is less than every key in n.right —
`Tree.ordered`) and AVL balance (the heights of n's right and left subtrees
differ by at most 1, and n.bal equals exactly height(n.right) minus
height(n.left) — `Tree.balanced`).  Stated for every container state
reachable from a freshly constructed container through the public mutating
operations; for the map the invariant is read off the key/balance skeleton
`MTree.strip`. -/
theorem claim_C1_invariants {α β : Type} [LinearOrder α] :
    (∀ s : avlTree α, avlTree.Reachable s → s.root.ordered ∧ s.root.balanced) ∧
    (∀ m : avlMap α β, avlMap.Reachable m →
      m.root.strip.ordered ∧ m.root.strip.balanced) := by
  constructor
  · intro s hs
    obtain ⟨h1, h2, _⟩ := avlTree.reachable_inv s hs
    exact ⟨h1, h2⟩
  · intro m hm
    obtain ⟨h1, h2, _⟩ := avlMap.reachable_invM m hm
    exact ⟨h1, h2⟩

theorem claim_C1_invariants_witness :
    (((avlTree.mk0 Int).insert 5).1.root.ordered ∧
      ((avlTree.mk0 Int).insert 5).1.root.balanced) ∧
    (((avlMap.mk0 Int Int).insert 3 30).1.root.strip.ordered ∧
      ((avlMap.mk0 Int Int).insert 3 30).1.root.strip.balanced) :=
  ⟨(claim_C1_invariants (α := Int) (β := Int)).1 ((avlTree.mk0 Int).insert 5).1
      (avlTree.Reachable.ins (avlTree.mk0 Int) 5 avlTree.Reachable.init),
    (claim_C1_invariants (α := Int) (β := Int)).2 ((avlMap.mk0 Int Int).insert 3 30).1
      (avlMap.Reachable.ins (avlMap.mk0 Int Int) 3 30 avlMap.Reachable.init)⟩

/-- C2: In the deletion-path rebalancers `balanceLeft` and `balanceRight`,
when the node's balance is at the rebalance value (+1 for `balanceLeft`, -1
for `balanceRight`) and a single rotation is applied: if the heavy child's
pre-rotation balance is 0, the subtree height is not reduced, `p.bal` and
`p1.bal` are restamped to their non-zero mirror values (+1 and -1 for
`balanceLeft`, -1 and +1 for `balanceRight`) and the height-changed flag is
cleared; if the heavy child's pre-rotation balance is non-zero, both become
0 and the flag stays set so the parent continues rebalancing.  The final
conjunct states the contrast with insertion: whenever `avlMap`'s node-level
insert returns with the height-changed flag still set, its rotation
counters are unchanged — i.e. insertion rotations always clear the flag. -/
theorem claim_C2_deletion_single_rotations {α β : Type} [LinearOrder α] :
    (∀ (k k1 : α) (c c1 : Nat) (l l1 r1 : Tree α),
      Tree.balanceLeft (.node k c 1 l (.node k1 c1 0 l1 r1)) =
        (.node k1 c1 (-1) (.node k c 1 l l1) r1, false)) ∧
    (∀ (k k1 : α) (c c1 : Nat) (l l1 r1 : Tree α),
      l.balanced → (Tree.node k1 c1 0 l1 r1).balanced →
      (Tree.node k1 c1 0 l1 r1).height = l.height + 2 →
      (Tree.balanceLeft (.node k c 1 l (.node k1 c1 0 l1 r1))).1.height =
        (Tree.node k c 1 l (.node k1 c1 0 l1 r1)).height) ∧
    (∀ (k k1 : α) (c c1 : Nat) (b1 : Int) (l l1 r1 : Tree α),
      0 ≤ b1 → b1 ≠ 0 →
      Tree.balanceLeft (.node k c 1 l (.node k1 c1 b1 l1 r1)) =
        (.node k1 c1 0 (.node k c 0 l l1) r1, true)) ∧
    (∀ (k k1 : α) (c c1 : Nat) (l1 r1 r : Tree α),
      Tree.balanceRight (.node k c (-1) (.node k1 c1 0 l1 r1) r) =
        (.node k1 c1 1 l1 (.node k c (-1) r1 r), false)) ∧
    (∀ (k k1 : α) (c c1 : Nat) (l1 r1 r : Tree α),
      r.balanced → (Tree.node k1 c1 0 l1 r1).balanced →
      (Tree.node k1 c1 0 l1 r1).height = r.height + 2 →
      (Tree.balanceRight (.node k c (-1) (.node k1 c1 0 l1 r1) r)).1.height =
        (Tree.node k c (-1) (.node k1 c1 0 l1 r1) r).height) ∧
    (∀ (k k1 : α) (c c1 : Nat) (b1 : Int) (l1 r1 r : Tree α),
      b1 ≤ 0 → b1 ≠ 0 →
      Tree.balanceRight (.node k c (-1) (.node k1 c1 b1 l1 r1) r) =
        (.node k1 c1 0 l1 (.node k c 0 r1 r), true)) ∧
    (∀ (x : α) (y : β) (m : MTree α β) (cnt : Counters),
      (MTree.insert x y m cnt).2.1 = true →
        (MTree.insert x y m cnt).2.2.2 = cnt) := by
  refine ⟨?_, ?_, ?_, ?_, ?_, ?_, ?_⟩
  · intro k k1 c c1 l l1 r1
    simp [Tree.balanceLeft]
  · intro k k1 c c1 l l1 r1 hbl hbr hh
    obtain ⟨hb1, hd1, hd2, hbl1, hbr1⟩ := hbr
    simp only [Tree.height] at hb1 hh
    simp [Tree.balanceLeft, Tree.height]
    omega
  · intro k k1 c c1 b1 l l1 r1 hpos hne
    simp [Tree.balanceLeft, hpos, hne]
  · intro k k1 c c1 l1 r1 r
    simp [Tree.balanceRight]
  · intro k k1 c c1 l1 r1 r hbr hbl hh
    obtain ⟨hb1, hd1, hd2, hbl1, hbr1⟩ := hbl
    simp only [Tree.height] at hb1 hh
    simp [Tree.balanceRight, Tree.height]
    omega
  · intro k k1 c c1 b1 l1 r1 r hneg hne
    simp [Tree.balanceRight, hneg, hne]
  · exact fun x y m cnt => MTree.insert_cntEq x y m cnt

theorem claim_C2_deletion_single_rotations_witness :
    (Tree.balanceLeft (.node (2:Int) 1 1 .nil
        (.node 4 1 0 (.node 3 1 0 .nil .nil) (.node 5 1 0 .nil .nil))) =
      (.node 4 1 (-1) (.node 2 1 1 .nil (.node 3 1 0 .nil .nil))
        (.node 5 1 0 .nil .nil), false)) ∧
    ((Tree.nil : Tree Int).balanced ∧
      (Tree.node (4:Int) 1 0 (.node 3 1 0 .nil .nil) (.node 5 1 0 .nil .nil)).balanced ∧
      (Tree.node (4:Int) 1 0 (.node 3 1 0 .nil .nil) (.node 5 1 0 .nil .nil)).height =
        (Tree.nil : Tree Int).height + 2 ∧
      (Tree.balanceLeft (.node (2:Int) 1 1 .nil
          (.node 4 1 0 (.node 3 1 0 .nil .nil) (.node 5 1 0 .nil .nil)))).1.height =
        (Tree.node (2:Int) 1 1 .nil
          (.node 4 1 0 (.node 3 1 0 .nil .nil) (.node 5 1 0 .nil .nil))).height) ∧
    ((0:Int) ≤ 1 ∧ (1:Int) ≠ 0 ∧
      Tree.balanceLeft (.node (2:Int) 1 1 .nil (.node 4 1 1 .nil (.node 5 1 0 .nil .nil))) =
        (.node 4 1 0 (.node 2 1 0 .nil .nil) (.node 5 1 0 .nil .nil), true)) ∧
    ((MTree.insert (1:Int) (10:Int) .nil Counters.zero).2.1 = true ∧
      (MTree.insert (1:Int) (10:Int) .nil Counters.zero).2.2.2 = Counters.zero) := by
  refine ⟨(claim_C2_deletion_single_rotations (α := Int) (β := Int)).1 2 4 1 1 .nil
      (.node 3 1 0 .nil .nil) (.node 5 1 0 .nil .nil), ?_, ?_, ?_⟩
  · refine ⟨by simp [Tree.balanced], by simp [Tree.balanced, Tree.height],
      by simp [Tree.height], ?_⟩
    exact (claim_C2_deletion_single_rotations (α := Int) (β := Int)).2.1 2 4 1 1 .nil
      (.node 3 1 0 .nil .nil) (.node 5 1 0 .nil .nil)
      (by simp [Tree.balanced]) (by simp [Tree.balanced, Tree.height])
      (by simp [Tree.height])
  · exact ⟨by decide, by decide,
      (claim_C2_deletion_single_rotations (α := Int) (β := Int)).2.2.1 2 4 1 1 1 .nil .nil
        (.node 5 1 0 .nil .nil) (by decide) (by decide)⟩
  · exact ⟨rfl, (claim_C2_deletion_single_rotations (α := Int) (β := Int)).2.2.2.2.2.2 1 10 .nil
      Counters.zero rfl⟩

/-- C3: When `erase` locates the node to be deleted (search key equal to the
node key, and in the set variant `copies ≤ 1` so the node is actually
removed): if either child link is null it splices in the other child and
sets the height-changed flag; otherwise it selects the replacement from the
deeper subtree by the node's balance factor — `bal ∈ {0, -1}` extracts the
rightmost node of the left subtree via `eraseRight` and overwrites the
target's key and payload with it, `bal = +1` extracts the leftmost node of
the right subtree via `eraseLeft`.  The key-list equations state that the
extracted node is exactly the rightmost (respectively leftmost) one. -/
theorem claim_C3_erase_target_cases {α : Type} [LinearOrder α] :
    (∀ (x : α) (c : Nat) (b : Int) (l : Tree α), c ≤ 1 →
      Tree.erase x (.node x c b l .nil) = some (l, true, true)) ∧
    (∀ (x : α) (c : Nat) (b : Int) (rk : α) (rc : Nat) (rb : Int)
        (rl rr : Tree α), c ≤ 1 →
      Tree.erase x (.node x c b .nil (.node rk rc rb rl rr)) =
        some (.node rk rc rb rl rr, true, true)) ∧
    (∀ (x : α) (c : Nat) (b : Int) (lk : α) (lc : Nat) (lb : Int)
        (ll lr : Tree α) (rk : α) (rc : Nat) (rb : Int) (rl rr : Tree α),
      c ≤ 1 → (b = 0 ∨ b = -1) →
      (Tree.erase x (.node x c b (.node lk lc lb ll lr) (.node rk rc rb rl rr)) =
        (let res := Tree.eraseRight lk lc lb ll lr
         let p : Tree α := .node res.2.2.1 res.2.2.2 b res.1 (.node rk rc rb rl rr)
         if res.2.1 then some ((Tree.balanceLeft p).1, (Tree.balanceLeft p).2, true)
         else some (p, false, true))) ∧
      (Tree.node lk lc lb ll lr).getKeys =
        (Tree.eraseRight lk lc lb ll lr).1.getKeys ++
          [(Tree.eraseRight lk lc lb ll lr).2.2.1]) ∧
    (∀ (x : α) (c : Nat) (b : Int) (lk : α) (lc : Nat) (lb : Int)
        (ll lr : Tree α) (rk : α) (rc : Nat) (rb : Int) (rl rr : Tree α),
      c ≤ 1 → b = 1 →
      (Tree.erase x (.node x c b (.node lk lc lb ll lr) (.node rk rc rb rl rr)) =
        (let res := Tree.eraseLeft rk rc rb rr rl
         let p : Tree α := .node res.2.2.1 res.2.2.2 b (.node lk lc lb ll lr) res.1
         if res.2.1 then some ((Tree.balanceRight p).1, (Tree.balanceRight p).2, true)
         else some (p, false, true))) ∧
      (Tree.node rk rc rb rl rr).getKeys =
        (Tree.eraseLeft rk rc rb rr rl).2.2.1 ::
          (Tree.eraseLeft rk rc rb rr rl).1.getKeys) := by
  refine ⟨?_, ?_, ?_, ?_⟩
  · intro x c b l hc
    simp [Tree.erase, lt_irrefl, hc]
  · intro x c b rk rc rb rl rr hc
    simp [Tree.erase, lt_irrefl, hc]
  · intro x c b lk lc lb ll lr rk rc rb rl rr hc hb
    constructor
    · simp only [Tree.erase, lt_irrefl, if_false, if_pos hc, if_pos hb]
    · exact (Tree.eraseRight_keys lr lk lc lb ll).symm
  · intro x c b lk lc lb ll lr rk rc rb rl rr hc hb
    subst hb
    constructor
    · have hb0 : ¬ ((1:Int) = 0 ∨ (1:Int) = -1) := by decide
      simp only [Tree.erase, lt_irrefl, if_false, if_pos hc, if_neg hb0, if_pos rfl]
      simp
    · exact (Tree.eraseLeft_keys rl rk rc rb rr).symm

theorem claim_C3_erase_target_cases_witness :
    ((1:Nat) ≤ 1 ∧
      Tree.erase (7:Int) (.node 7 1 (-1) (.node 5 1 0 .nil .nil) .nil) =
        some (.node 5 1 0 .nil .nil, true, true)) ∧
    ((1:Nat) ≤ 1 ∧ ((0:Int) = 0 ∨ (0:Int) = -1) ∧
      ((Tree.erase (7:Int) (.node 7 1 0 (.node 5 1 0 .nil .nil) (.node 9 1 0 .nil .nil)) =
        (let res := Tree.eraseRight (5:Int) 1 0 .nil .nil
         let p : Tree Int := .node res.2.2.1 res.2.2.2 0 res.1 (.node 9 1 0 .nil .nil)
         if res.2.1 then some ((Tree.balanceLeft p).1, (Tree.balanceLeft p).2, true)
         else some (p, false, true))) ∧
      (Tree.node (5:Int) 1 0 .nil .nil).getKeys =
        (Tree.eraseRight (5:Int) 1 0 .nil .nil).1.getKeys ++
          [(Tree.eraseRight (5:Int) 1 0 .nil .nil).2.2.1])) :=
  ⟨⟨by decide, (claim_C3_erase_target_cases (α := Int)).1 7 1 (-1)
      (.node 5 1 0 .nil .nil) (by decide)⟩,
    ⟨by decide, by decide,
      (claim_C3_erase_target_cases (α := Int)).2.2.1 7 1 0 5 1 0 .nil .nil 9 1 0
        .nil .nil (by decide) (Or.inl rfl)⟩⟩

/-- C4: In the set variant, `insert(key)` returns true iff a new node was
created for a key not previously present; inserting a key that is already
present increments that node's duplicate counter (`bumpCopies` changes only
the `copies` field of the node on the search path), leaves `size()` (the
number of distinct keys) unchanged, and returns false. -/
theorem claim_C4_set_insert_return {α : Type} [LinearOrder α] :
    (∀ (s : avlTree α) (x : α), (s.insert x).2 = !(s.contains x)) ∧
    (∀ (s : avlTree α) (x : α), s.contains x = true →
      (s.insert x).1.root = Tree.bumpCopies x s.root ∧
      (s.insert x).1.count = s.count ∧ (s.insert x).2 = false) := by
  constructor
  · intro s x
    rw [avlTree.insert_eq]
    exact Tree.insert_a_eq x s.root
  · intro s x hc
    have hdup := Tree.insert_dup x s.root hc
    rw [avlTree.insert_eq]
    simp [hdup]

theorem claim_C4_set_insert_return_witness :
    ((((avlTree.mk0 Int).insert 7).1.insert 7).2 =
      !(((avlTree.mk0 Int).insert 7).1.contains 7)) ∧
    (((avlTree.mk0 Int).insert 7).1.contains 7 = true ∧
      ((((avlTree.mk0 Int).insert 7).1.insert 7).1.root =
        Tree.bumpCopies 7 ((avlTree.mk0 Int).insert 7).1.root ∧
      (((avlTree.mk0 Int).insert 7).1.insert 7).1.count =
        ((avlTree.mk0 Int).insert 7).1.count ∧
      (((avlTree.mk0 Int).insert 7).1.insert 7).2 = false)) :=
  ⟨claim_C4_set_insert_return.1 ((avlTree.mk0 Int).insert 7).1 7,
    by decide,
    claim_C4_set_insert_return.2 ((avlTree.mk0 Int).insert 7).1 7 (by decide)⟩

/-- C5 counterexample: the claim asserts that a duplicate-key `insert` on
the map returns false, but inserting key 1 twice into an empty `avlMap`
returns true on the second call (which does overwrite the value): the code
sets `a = true` on the update path and `avlMap::insert` returns `a` (its
own doc comment reads "return true if update, false if insertion"). -/
theorem claim_C5_map_insert_counterexample :
    (((avlMap.mk0 Int Int).insert 1 10).1.insert 1 20).2 = true ∧
    (((avlMap.mk0 Int Int).insert 1 10).1.insert 1 20).1.find 1 = some 20 :=
  ⟨rfl, rfl⟩

/-- C5 (amended): In the map variant, `insert(key, value)` for a key that is
already present overwrites the stored value (only the located node's value
field changes — `setValue`), leaves `size()` unchanged, and returns true. -/
theorem claim_C5_map_insert_update {α β : Type} [LinearOrder α] :
    ∀ (m : avlMap α β) (x : α) (y : β), m.contains x = true →
      (m.insert x y).2 = true ∧
      (m.insert x y).1.root = MTree.setValue x y m.root ∧
      (m.insert x y).1.count = m.count ∧
      (m.insert x y).1.find x = some y := by
  intro m x y hc
  have hdup := MTree.insert_dupM x y m.root m.cnt hc
  rw [avlMap.insert_eqM]
  refine ⟨by simp [hdup], by simp [hdup], by simp [hdup], ?_⟩
  simp only [avlMap.find, hdup]
  exact MTree.find_setValue x y m.root hc

theorem claim_C5_map_insert_update_witness :
    ((avlMap.mk0 Int Int).insert 1 10).1.contains 1 = true ∧
    ((((avlMap.mk0 Int Int).insert 1 10).1.insert 1 20).2 = true ∧
      (((avlMap.mk0 Int Int).insert 1 10).1.insert 1 20).1.root =
        MTree.setValue 1 20 ((avlMap.mk0 Int Int).insert 1 10).1.root ∧
      (((avlMap.mk0 Int Int).insert 1 10).1.insert 1 20).1.count =
        ((avlMap.mk0 Int Int).insert 1 10).1.count ∧
      (((avlMap.mk0 Int Int).insert 1 10).1.insert 1 20).1.find 1 = some 20) :=
  ⟨rfl, claim_C5_map_insert_update ((avlMap.mk0 Int Int).insert 1 10).1 1 20 rfl⟩

/-- C6: For the set variant, for every key x and every n ≥ 1: inserting x
n times into an empty tree and then erasing x n times returns the tree to
empty; erasing x fewer than n times leaves x present; each erase before the
n-th decrements the duplicate counter (the root is the single node
`node x (n−k) 0 nil nil` after k erasures) and returns false; only the
erase that decrements the counter through 1 physically removes the node and
returns true. -/
theorem claim_C6_dup_insert_erase {α : Type} [LinearOrder α]
    (x : α) (n : Nat) (hn : 1 ≤ n) :
    ((avlTree.eraseIter x n (avlTree.insertIter x n (avlTree.mk0 α))).root = .nil ∧
      (avlTree.eraseIter x n (avlTree.insertIter x n (avlTree.mk0 α))).count = 0) ∧
    (∀ k, k < n →
      (avlTree.eraseIter x k (avlTree.insertIter x n (avlTree.mk0 α))).contains x
        = true) ∧
    (∀ k, k + 1 < n →
      Option.map Prod.snd
        ((avlTree.eraseIter x k (avlTree.insertIter x n (avlTree.mk0 α))).erase x)
        = some false ∧
      (avlTree.eraseIter x (k + 1) (avlTree.insertIter x n (avlTree.mk0 α))).root
        = .node x (n - k - 1) 0 .nil .nil) ∧
    (Option.map Prod.snd
        ((avlTree.eraseIter x (n - 1) (avlTree.insertIter x n (avlTree.mk0 α))).erase x)
      = some true ∧
      (avlTree.eraseIter x n (avlTree.insertIter x n (avlTree.mk0 α))).root = .nil) := by
  have hstate := avlTree.eraseIter_state x n hn
  refine ⟨?_, ?_, ?_, ?_⟩
  · exact (hstate n le_rfl).2 rfl
  · intro k hk
    obtain ⟨h1, _⟩ := (hstate k (by omega)).1 hk
    simp only [avlTree.contains, h1, Tree.contains, lt_irrefl, if_false]
  · intro k hk
    obtain ⟨h1, h2⟩ := (hstate k (by omega)).1 (by omega)
    obtain ⟨h3, _⟩ := (hstate (k + 1) (by omega)).1 (by omega)
    refine ⟨?_, by simpa using h3⟩
    rw [avlTree.erase_eq, h1, Tree.erase_single]
    have : ¬ (n - k ≤ 1) := by omega
    rw [if_neg this]
    simp
  · obtain ⟨h1, h2⟩ := (hstate (n - 1) (by omega)).1 (by omega)
    refine ⟨?_, (hstate n le_rfl).2 rfl |>.1⟩
    rw [avlTree.erase_eq, h1, Tree.erase_single]
    have : n - (n - 1) ≤ 1 := by omega
    rw [if_pos this]
    simp

theorem claim_C6_dup_insert_erase_witness :
    (1:Nat) ≤ 2 ∧
    ((avlTree.eraseIter (5:Int) 2 (avlTree.insertIter 5 2 (avlTree.mk0 Int))).root = .nil ∧
      (avlTree.eraseIter (5:Int) 2 (avlTree.insertIter 5 2 (avlTree.mk0 Int))).count = 0) ∧
    (avlTree.eraseIter (5:Int) 1 (avlTree.insertIter 5 2 (avlTree.mk0 Int))).contains 5
      = true ∧
    (Option.map Prod.snd
      ((avlTree.eraseIter (5:Int) 0 (avlTree.insertIter 5 2 (avlTree.mk0 Int))).erase 5)
      = some false) ∧
    (Option.map Prod.snd
      ((avlTree.eraseIter (5:Int) 1 (avlTree.insertIter 5 2 (avlTree.mk0 Int))).erase 5)
      = some true) :=
  ⟨by decide,
    (claim_C6_dup_insert_erase (5:Int) 2 (by decide)).1,
    (claim_C6_dup_insert_erase (5:Int) 2 (by decide)).2.1 1 (by decide),
    ((claim_C6_dup_insert_erase (5:Int) 2 (by decide)).2.2.1 0 (by decide)).1,
    ((claim_C6_dup_insert_erase (5:Int) 2 (by decide)).2.2.2).1⟩

/-- C7: For every tree built by any sequence of insertions and erasures
(every reachable container state), `getKeys` writes exactly `size()` keys,
in strictly ascending order, and they are exactly the keys stored in the
tree (membership agrees with `contains`); in particular, for any list of
keys inserted into an empty tree, the enumeration is strictly ascending and
its members are exactly the inserted keys, so any two insertion orders with
the same key set give the same (sorted) enumeration. -/
theorem claim_C7_getKeys_sorted {α : Type} [LinearOrder α] :
    (∀ s : avlTree α, avlTree.Reachable s →
      List.Sorted (· < ·) s.getKeys ∧
      s.getKeys.length = s.size ∧
      (∀ y, y ∈ s.getKeys ↔ s.contains y = true)) ∧
    (∀ L : List α,
      List.Sorted (· < ·) (avlTree.insertList (avlTree.mk0 α) L).getKeys ∧
      (∀ y, y ∈ (avlTree.insertList (avlTree.mk0 α) L).getKeys ↔ y ∈ L)) ∧
    (∀ L1 L2 : List α, (∀ y, y ∈ L1 ↔ y ∈ L2) →
      (avlTree.insertList (avlTree.mk0 α) L1).getKeys =
        (avlTree.insertList (avlTree.mk0 α) L2).getKeys) := by
  have hsorted : ∀ s : avlTree α, avlTree.Reachable s →
      List.Sorted (· < ·) s.getKeys := by
    intro s hs
    exact Tree.sorted_getKeys s.root (avlTree.reachable_inv s hs).1
  have hmem : ∀ (L : List α) (y : α),
      y ∈ (avlTree.insertList (avlTree.mk0 α) L).getKeys ↔ y ∈ L := by
    intro L y
    rw [show (avlTree.insertList (avlTree.mk0 α) L).getKeys =
      (avlTree.insertList (avlTree.mk0 α) L).root.getKeys from rfl]
    rw [avlTree.insertList_mem L y (avlTree.mk0 α)]
    simp [avlTree.mk0, Tree.getKeys]
  refine ⟨?_, ?_, ?_⟩
  · intro s hs
    obtain ⟨ho, hb, hc⟩ := avlTree.reachable_inv s hs
    refine ⟨hsorted s hs, hc.symm, ?_⟩
    intro y
    exact (Tree.contains_iff_mem y s.root ho).symm
  · intro L
    exact ⟨hsorted _ (avlTree.insertList_reachable L _ avlTree.Reachable.init),
      hmem L⟩
  · intro L1 L2 hiff
    have hs1 := hsorted _ (avlTree.insertList_reachable L1 _ avlTree.Reachable.init)
    have hs2 := hsorted _ (avlTree.insertList_reachable L2 _ avlTree.Reachable.init)
    haveI : IsAntisymm α (· < ·) := ⟨fun a b h1 h2 => ((lt_asymm h1) h2).elim⟩
    refine List.eq_of_perm_of_sorted ?_ hs1 hs2
    refine List.perm_of_nodup_nodup_toFinset_eq hs1.nodup hs2.nodup ?_
    ext y
    simp only [List.mem_toFinset]
    rw [hmem L1 y, hmem L2 y, hiff y]

theorem claim_C7_getKeys_sorted_witness :
    List.Sorted (· < ·) (avlTree.insertList (avlTree.mk0 Int) [3, 1, 2]).getKeys ∧
    (avlTree.insertList (avlTree.mk0 Int) [3, 1, 2]).getKeys.length =
      (avlTree.insertList (avlTree.mk0 Int) [3, 1, 2]).size ∧
    ((2:Int) ∈ (avlTree.insertList (avlTree.mk0 Int) [3, 1, 2]).getKeys ↔
      (avlTree.insertList (avlTree.mk0 Int) [3, 1, 2]).contains 2 = true) ∧
    ((2:Int) ∈ (avlTree.insertList (avlTree.mk0 Int) [3, 1, 2]).getKeys ↔
      (2:Int) ∈ [3, 1, 2]) ∧
    (avlTree.insertList (avlTree.mk0 Int) [3, 1, 2]).getKeys =
      (avlTree.insertList (avlTree.mk0 Int) [2, 3, 1]).getKeys :=
  ⟨((claim_C7_getKeys_sorted (α := Int)).1 _
      (avlTree.insertList_reachable [3, 1, 2] _ avlTree.Reachable.init)).1,
    ((claim_C7_getKeys_sorted (α := Int)).1 _
      (avlTree.insertList_reachable [3, 1, 2] _ avlTree.Reachable.init)).2.1,
    ((claim_C7_getKeys_sorted (α := Int)).1 _
      (avlTree.insertList_reachable [3, 1, 2] _ avlTree.Reachable.init)).2.2 2,
    ((claim_C7_getKeys_sorted (α := Int)).2.1 [3, 1, 2]).2 2,
    (claim_C7_getKeys_sorted (α := Int)).2.2 [3, 1, 2] [2, 3, 1]
      (by intro y; simp only [List.mem_cons, List.not_mem_nil, or_false]; tauto)⟩

/-- C8: `erase` of a key not present in the tree (including erase on an
empty tree) returns false and causes no state change: the tree structure
(hence every node's key, payload and balance factor) and `size()` are
unchanged by the call; only the container's scratch booleans `h` and `r`
are written (to false). -/
theorem claim_C8_absent_erase_noop {α : Type} [LinearOrder α] :
    ∀ (s : avlTree α) (x : α), s.contains x = false →
      s.erase x = some (⟨s.root, s.count, false, s.a, false⟩, false) := by
  intro s x hc
  rw [avlTree.erase_eq, Tree.erase_notfound x s.root hc]
  rfl

theorem claim_C8_absent_erase_noop_witness :
    ((avlTree.mk0 Int).insert 3).1.contains 7 = false ∧
    (((avlTree.mk0 Int).insert 3).1.erase 7 =
      some (⟨((avlTree.mk0 Int).insert 3).1.root,
        ((avlTree.mk0 Int).insert 3).1.count, false,
        ((avlTree.mk0 Int).insert 3).1.a, false⟩, false)) :=
  ⟨by decide, claim_C8_absent_erase_noop ((avlTree.mk0 Int).insert 3).1 7 (by decide)⟩

/-- C9: For every tree in which each node's balance factor lies in
{-1, 0, +1} (as every tree reachable through the public operations does —
the last two conjuncts), `erase` never reaches the InvariantViolation
branch that throws: the node-level erase of both variants returns `some`
(the other public operations — insert, contains, find, getKeys, clear —
are total Lean functions of the embedding by construction). -/
theorem claim_C9_no_throw {α β : Type} [LinearOrder α] :
    (∀ (t : Tree α) (x : α), t.balsOk → (Tree.erase x t).isSome) ∧
    (∀ (m : MTree α β) (x : α) (cnt : Counters), m.balsOk →
      (MTree.erase x m cnt).isSome) ∧
    (∀ s : avlTree α, avlTree.Reachable s → s.root.balsOk) ∧
    (∀ m : avlMap α β, avlMap.Reachable m → m.root.balsOk) := by
  refine ⟨fun t x h => Tree.erase_isSome x t h,
    fun m x cnt h => MTree.erase_isSomeM x m cnt h, ?_, ?_⟩
  · intro s hs
    exact Tree.balanced_balsOk s.root (avlTree.reachable_inv s hs).2.1
  · intro m hm
    exact (MTree.balsOk_strip m.root).1
      (Tree.balanced_balsOk m.root.strip (avlMap.reachable_invM m hm).2.1)

theorem claim_C9_no_throw_witness :
    (Tree.node (3:Int) 1 0 .nil .nil).balsOk ∧
    (Tree.erase (3:Int) (.node 3 1 0 .nil .nil)).isSome = true ∧
    (MTree.node (3:Int) (30:Int) 0 .nil .nil).balsOk ∧
    (MTree.erase (3:Int) (.node 3 30 0 .nil .nil) Counters.zero).isSome = true ∧
    (avlTree.mk0 Int).root.balsOk ∧ (avlMap.mk0 Int Int).root.balsOk :=
  ⟨by simp [Tree.balsOk],
    (claim_C9_no_throw (α := Int) (β := Int)).1 (.node 3 1 0 .nil .nil) 3
      (by simp [Tree.balsOk]),
    by simp [MTree.balsOk],
    (claim_C9_no_throw (α := Int) (β := Int)).2.1 (.node 3 30 0 .nil .nil) 3
      Counters.zero (by simp [MTree.balsOk]),
    (claim_C9_no_throw (α := Int) (β := Int)).2.2.1 (avlTree.mk0 Int)
      avlTree.Reachable.init,
    (claim_C9_no_throw (α := Int) (β := Int)).2.2.2 (avlMap.mk0 Int Int)
      avlMap.Reachable.init⟩

/-- C10: Inserting a key that is already present modifies only the located
node's payload field — the `copies` counter in the set variant
(`bumpCopies`), the stored value in the map variant (`setValue`): no child
link or balance factor of any node changes, no rotation is performed (the
map variant's rotation counters come back unchanged), and the
height-changed flag is false when the call returns. -/
theorem claim_C10_dup_insert_frame {α β : Type} [LinearOrder α] :
    (∀ (t : Tree α) (x : α), t.contains x = true →
      Tree.insert x t = (t.bumpCopies x, false, false)) ∧
    (∀ (m : MTree α β) (x : α) (y : β) (cnt : Counters),
      MTree.contains x m = true →
      MTree.insert x y m cnt = (MTree.setValue x y m, false, true, cnt)) := by
  exact ⟨fun t x h => Tree.insert_dup x t h,
    fun m x y cnt h => MTree.insert_dupM x y m cnt h⟩

theorem claim_C10_dup_insert_frame_witness :
    Tree.contains (3:Int) (.node 3 1 0 .nil .nil) = true ∧
    Tree.insert (3:Int) (.node 3 1 0 .nil .nil) =
      (Tree.bumpCopies 3 (.node 3 1 0 .nil .nil), false, false) ∧
    MTree.contains (3:Int) (MTree.node 3 (30:Int) 0 .nil .nil) = true ∧
    MTree.insert (3:Int) (40:Int) (.node 3 30 0 .nil .nil) Counters.zero =
      (MTree.setValue 3 40 (.node 3 30 0 .nil .nil), false, true, Counters.zero) :=
  ⟨rfl,
    (claim_C10_dup_insert_frame (α := Int) (β := Int)).1 (.node 3 1 0 .nil .nil) 3 rfl,
    rfl,
    (claim_C10_dup_insert_frame (α := Int) (β := Int)).2 (.node 3 30 0 .nil .nil) 3 40
      Counters.zero rfl⟩

end Avl
